import Mathlib

/-!
Verification of the subtitle timing and segmentation engine of the
SMD-Backup repository (src/main.py, src/timing_redistributor.py,
src/transcribe_api.py).

The Python code is shallowly embedded: Python strings become `List Char`,
Python ints become `Int` (or `Nat` where the source value is provably
non-negative), Python lists become `List`, and Python dicts become
association lists.  Python `int(<float expr>)` truncation of a product
`a * (b / c)` over non-negative operands is embedded as exact integer
division (`Int.tdiv`, truncation toward zero, which agrees with Python's
truncation whenever the IEEE-754 double computation is exact); the spots
where this modelling choice is made are marked in doc comments.
-/

/-- Millisecond-timed subtitle segment.  Embeds the dataclass
`SubtitleSegment` of src/timing_redistributor.py (fields `number`,
`start_ms`, `end_ms`, `text`) and equally the
`{'number', 'start_ms', 'end_ms', 'text'}` dicts used by
src/main.py's timing functions.  Text is a Python string, embedded as a
list of characters. -/
structure SubtitleSegment where
  number : Int
  start_ms : Int
  end_ms : Int
  text : List Char
deriving Repr, DecidableEq

/-- Loop body of `group_continuous_subtitles`
(src/timing_redistributor.py:93-120) and of the identical grouping loop in
`group_continuous_subtitles_for_timing` (src/main.py:805-824):
`current_group` is the accumulator, `prev` the previously seen segment
(always the last element of `current_group`), and the remaining input is
scanned left to right.  A gap `curr.start_ms - prev.end_ms <= max_gap_ms`
extends the current group; a strictly larger gap closes it and starts a
new one.  The final `current_group` is always appended (it is never
empty). -/
def group_aux (max_gap_ms : Int) (current_group : List SubtitleSegment)
    (prev : SubtitleSegment) : List SubtitleSegment → List (List SubtitleSegment)
  | [] => [current_group]
  | curr :: rest =>
    if curr.start_ms - prev.end_ms ≤ max_gap_ms then
      group_aux max_gap_ms (current_group ++ [curr]) curr rest
    else
      current_group :: group_aux max_gap_ms [curr] curr rest

/-- Embeds `group_continuous_subtitles(segments, max_gap_ms)`
(src/timing_redistributor.py:93-120): empty input yields no groups,
otherwise the scan starts with a group holding the first segment. -/
def group_continuous_subtitles (segments : List SubtitleSegment)
    (max_gap_ms : Int) : List (List SubtitleSegment) :=
  match segments with
  | [] => []
  | s :: rest => group_aux max_gap_ms [s] s rest

/-- Two segments are continuous when the inter-segment gap is at most the
threshold (the `gap_ms <= max_gap_ms` test of the grouping loop). -/
def contAdj (max_gap_ms : Int) (a b : SubtitleSegment) : Prop :=
  b.start_ms - a.end_ms ≤ max_gap_ms

/-- Two consecutive groups are separated by a gap strictly above the
threshold (the `else` branch of the grouping loop). -/
def groupBreak (max_gap_ms : Int) (a b : List SubtitleSegment) : Prop :=
  ∀ x ∈ a.getLast?, ∀ y ∈ b.head?, ¬ contAdj max_gap_ms x y

lemma group_aux_flatten (g : Int) :
    ∀ (rest : List SubtitleSegment) (cur : List SubtitleSegment) (prev : SubtitleSegment),
      (group_aux g cur prev rest).flatten = cur ++ rest := by
  intro rest
  induction rest with
  | nil => intro cur prev; simp [group_aux]
  | cons c rest ih =>
    intro cur prev
    by_cases h : c.start_ms - prev.end_ms ≤ g
    · simp [group_aux, h, ih]
    · simp [group_aux, h, ih]

lemma group_aux_ne_nil (g : Int) :
    ∀ (rest cur : List SubtitleSegment) (prev : SubtitleSegment),
      cur ≠ [] → ∀ grp ∈ group_aux g cur prev rest, grp ≠ [] := by
  intro rest
  induction rest with
  | nil => intro cur prev hcur grp hg; simp [group_aux] at hg; simpa [hg] using hcur
  | cons c rest ih =>
    intro cur prev hcur grp hg
    by_cases h : c.start_ms - prev.end_ms ≤ g
    · simp only [group_aux, if_pos h] at hg
      exact ih _ _ (by simp) grp hg
    · simp only [group_aux, if_neg h, List.mem_cons] at hg
      rcases hg with rfl | hg
      · exact hcur
      · exact ih _ _ (by simp) grp hg

lemma group_aux_first_extends (g : Int) :
    ∀ (rest cur : List SubtitleSegment) (prev : SubtitleSegment),
      ∃ ext tail, group_aux g cur prev rest = (cur ++ ext) :: tail := by
  intro rest
  induction rest with
  | nil => intro cur prev; exact ⟨[], [], by simp [group_aux]⟩
  | cons c rest ih =>
    intro cur prev
    by_cases h : c.start_ms - prev.end_ms ≤ g
    · obtain ⟨ext, tail, he⟩ := ih (cur ++ [c]) c
      exact ⟨c :: ext, tail, by simp [group_aux, h, he]⟩
    · exact ⟨[], group_aux g [c] c rest, by simp [group_aux, h]⟩

lemma group_aux_chain (g : Int) :
    ∀ (rest cur : List SubtitleSegment) (prev : SubtitleSegment),
      cur.getLast? = some prev → List.Chain' (contAdj g) cur →
      ∀ grp ∈ group_aux g cur prev rest, List.Chain' (contAdj g) grp := by
  intro rest
  induction rest with
  | nil =>
    intro cur prev _ hchain grp hg
    simp [group_aux] at hg; simpa [hg] using hchain
  | cons c rest ih =>
    intro cur prev hlast hchain grp hg
    by_cases h : c.start_ms - prev.end_ms ≤ g
    · simp only [group_aux, if_pos h] at hg
      refine ih (cur ++ [c]) c (by simp) ?_ grp hg
      refine List.Chain'.append hchain (List.chain'_singleton c) ?_
      intro x hx y hy
      simp at hy
      subst hy
      rw [hlast] at hx
      simp at hx
      subst hx
      exact h
    · simp only [group_aux, if_neg h, List.mem_cons] at hg
      rcases hg with rfl | hg
      · exact hchain
      · exact ih [c] c (by simp) (List.chain'_singleton c) grp hg

lemma group_aux_break_chain (g : Int) :
    ∀ (rest cur : List SubtitleSegment) (prev : SubtitleSegment),
      cur.getLast? = some prev →
      List.Chain' (groupBreak g) (group_aux g cur prev rest) := by
  intro rest
  induction rest with
  | nil => intro cur prev _; simp [group_aux]
  | cons c rest ih =>
    intro cur prev hlast
    by_cases h : c.start_ms - prev.end_ms ≤ g
    · simp only [group_aux, if_pos h]
      exact ih (cur ++ [c]) c (by simp)
    · simp only [group_aux, if_neg h]
      obtain ⟨ext, tail, he⟩ := group_aux_first_extends g rest [c] c
      refine List.chain'_cons'.mpr ⟨?_, ih [c] c (by simp)⟩
      intro grp hgrp x hx y hy
      rw [he] at hgrp
      simp at hgrp
      subst hgrp
      simp at hy
      subst hy
      rw [hlast] at hx
      simp at hx
      subst hx
      exact h

/-- C10: `group_continuous_subtitles` returns a partition of its input:
every group is non-empty, concatenating the groups in order yields exactly
the input list (each segment appears once, in order, unmodified), and the
empty input yields the empty group list. -/
theorem group_continuous_subtitles_partition
    (segments : List SubtitleSegment) (max_gap_ms : Int) :
    (group_continuous_subtitles segments max_gap_ms).flatten = segments ∧
    (∀ grp ∈ group_continuous_subtitles segments max_gap_ms, grp ≠ []) ∧
    group_continuous_subtitles [] max_gap_ms = [] := by
  refine ⟨?_, ?_, rfl⟩
  · cases segments with
    | nil => rfl
    | cons s rest => simpa using group_aux_flatten max_gap_ms rest [s] s
  · cases segments with
    | nil => intro grp hg; simp [group_continuous_subtitles] at hg
    | cons s rest =>
      intro grp hg
      exact group_aux_ne_nil max_gap_ms rest [s] s (by simp) grp hg

/-- C8: the grouping threshold is inclusive.  The groups concatenate back
to the input; inside each group every adjacent pair has gap
`next.start_ms - prev.end_ms <= max_gap_ms` (so a gap equal to the
threshold keeps the pair in the same group); and at every boundary
between consecutive groups the gap is strictly greater than the
threshold.  Together with the partition property this makes each group a
maximal run of consecutive segments with pairwise gaps at most
`max_gap_ms`. -/
theorem group_continuous_subtitles_threshold
    (segments : List SubtitleSegment) (max_gap_ms : Int) :
    (group_continuous_subtitles segments max_gap_ms).flatten = segments ∧
    (∀ grp ∈ group_continuous_subtitles segments max_gap_ms,
      List.Chain' (contAdj max_gap_ms) grp) ∧
    List.Chain' (groupBreak max_gap_ms)
      (group_continuous_subtitles segments max_gap_ms) := by
  refine ⟨?_, ?_, ?_⟩
  · cases segments with
    | nil => rfl
    | cons s rest => simpa using group_aux_flatten max_gap_ms rest [s] s
  · cases segments with
    | nil => intro grp hg; simp [group_continuous_subtitles] at hg
    | cons s rest =>
      intro grp hg
      exact group_aux_chain max_gap_ms rest [s] s (by simp)
        (List.chain'_singleton s) grp hg
  · cases segments with
    | nil => simp [group_continuous_subtitles]
    | cons s rest =>
      exact group_aux_break_chain max_gap_ms rest [s] s (by simp)

/-- Python default whitespace characters as used by str.strip() and
str.split() with no argument, restricted to the ASCII range (the engine's
timestamps and structure are ASCII; Unicode whitespace is not modelled). -/
def isPySpace (c : Char) : Bool :=
  c = ' ' || c = '\t' || c = '\n' || c = '\r' || c = '\x0b' || c = '\x0c'

/-- Embeds Python str.strip() with no argument: removes leading and
trailing whitespace. -/
def pyStrip (s : List Char) : List Char :=
  ((s.dropWhile isPySpace).reverse.dropWhile isPySpace).reverse

/-- Fuel-indexed scan embedding Python re.sub applied with the pattern
matching a literal less-than sign, one or more characters other than a
greater-than sign, then a greater-than sign, replacing each leftmost
non-overlapping match by the empty string (the tag-stripping step of
`count_words_in_text`, src/main.py:826-831, and of
`SubtitleSegment.word_count`, src/timing_redistributor.py:27-32).  The
fuel starts at the list length, which bounds the number of steps. -/
def stripTagsAux : Nat → List Char → List Char
  | _, [] => []
  | 0, s => s
  | fuel+1, c :: rest =>
    if c = '<' then
      let body := rest.takeWhile (fun d => d != '>')
      let rest' := rest.dropWhile (fun d => d != '>')
      if body.isEmpty then '<' :: stripTagsAux fuel rest
      else
        match rest' with
        | '>' :: after => stripTagsAux fuel after
        | _ => '<' :: stripTagsAux fuel rest
    else c :: stripTagsAux fuel rest

/-- Tag stripping at full fuel. -/
def stripTags (s : List Char) : List Char := stripTagsAux s.length s

/-- Fuel-indexed embedding of Python str.split() with no argument:
splits on runs of whitespace and never yields empty tokens. -/
def pySplitWsAux : Nat → List Char → List (List Char)
  | _, [] => []
  | 0, _ => []
  | fuel+1, s =>
    let s1 := s.dropWhile isPySpace
    match s1 with
    | [] => []
    | _ :: _ =>
      s1.takeWhile (fun c => !(isPySpace c)) ::
        pySplitWsAux fuel (s1.dropWhile (fun c => !(isPySpace c)))

/-- Whitespace split at full fuel. -/
def pySplitWhitespace (s : List Char) : List (List Char) :=
  pySplitWsAux s.length s

/-- Embeds `count_words_in_text(text)` (src/main.py:826-831) and the
identical `SubtitleSegment.word_count` (src/timing_redistributor.py:27-32):
strip the text, delete markup tags, split on whitespace, and count the
tokens whose own strip is non-empty. -/
def count_words_in_text (text : List Char) : Nat :=
  let clean_text := stripTags (pyStrip text)
  let words := pySplitWhitespace clean_text
  (words.filter (fun w => !(pyStrip w).isEmpty)).length

/-- Total word count of a group, as computed by both redistribution
functions (`word_counts = [...]; total_words = sum(word_counts)`). -/
def groupTotalWords (group : List SubtitleSegment) : Int :=
  (group.map (fun seg => (count_words_in_text seg.text : Int))).sum

/-- Start boundary of a group: `group[0]['start_ms']`. -/
def groupStartMs (group : List SubtitleSegment) : Int :=
  (group.headD ⟨0, 0, 0, []⟩).start_ms

/-- End boundary of a group: `group[-1]['end_ms']`. -/
def groupEndMs (group : List SubtitleSegment) : Int :=
  (group.getLastD ⟨0, 0, 0, []⟩).end_ms

/-- Overwrites the end time of the last segment of a list, embedding the
statement `redistributed_segments[-1]['end_ms'] = group_end_ms`
(src/main.py:909) and `redistributed_segments[-1].end_ms = group_end_ms`
(src/timing_redistributor.py:185). -/
def setLastEnd (e : Int) : List SubtitleSegment → List SubtitleSegment
  | [] => []
  | [s] => [{ s with end_ms := e }]
  | s :: t :: rest => s :: setLastEnd e (t :: rest)

/-- The per-segment loop of `redistribute_timing_in_group`
(src/timing_redistributor.py:151-181), over the zip of the group with its
word counts, carrying `current_start_ms`.  The last segment takes
`group_end_ms`; every other segment receives
`max(int(total_duration_ms * words/total_words), min_duration_ms)` capped
at `group_end_ms`.  Python computes `int(total_duration_ms * proportion)`
on IEEE doubles; it is embedded as exact truncated division
`Int.tdiv (total_duration_ms * words) total_words`. -/
def redistribute_loop_tr
    (total_words total_duration_ms min_duration_ms group_end_ms : Int) :
    Int → List (SubtitleSegment × Int) → List SubtitleSegment
  | _, [] => []
  | current_start_ms, (segment, words) :: rest =>
    let segment_end_ms :=
      if rest.isEmpty then group_end_ms
      else
        let proportional_duration := Int.tdiv (total_duration_ms * words) total_words
        let actual_duration := max proportional_duration min_duration_ms
        let e := current_start_ms + actual_duration
        if e > group_end_ms then group_end_ms else e
    { segment with start_ms := current_start_ms, end_ms := segment_end_ms } ::
      redistribute_loop_tr total_words total_duration_ms min_duration_ms
        group_end_ms segment_end_ms rest

/-- Embeds `redistribute_timing_in_group(group, min_duration_ms)` of
src/timing_redistributor.py:123-187: groups of size at most 1 are returned
unchanged, as are groups with zero total words or non-positive total
duration; otherwise timing is reassigned proportionally to word count and
the last segment is pinned to the original group end. -/
def redistribute_timing_in_group_tr (group : List SubtitleSegment)
    (min_duration_ms : Int) : List SubtitleSegment :=
  match group with
  | [] => []
  | [s] => [s]
  | g0 :: g1 :: gs =>
    let grp := g0 :: g1 :: gs
    let word_counts := grp.map (fun seg => (count_words_in_text seg.text : Int))
    let total_words := word_counts.sum
    if total_words = 0 then grp
    else
      let group_start_ms := g0.start_ms
      let group_end_ms := ((g1 :: gs).getLastD g0).end_ms
      let total_duration_ms := group_end_ms - group_start_ms
      if total_duration_ms ≤ 0 then grp
      else
        setLastEnd group_end_ms
          (redistribute_loop_tr total_words total_duration_ms min_duration_ms
            group_end_ms group_start_ms (grp.zip word_counts))

/-- The overlap-resolution post-pass of src/main.py:912-925, written as a
recursion over the segment list: for each adjacent pair, if
`curr.end_ms >= next.start_ms` then `curr.end_ms` is pulled back to
`next.start_ms - gap_ms`; if that violates the minimum duration,
`curr.end_ms` becomes `curr.start_ms + min_duration_ms` and the next
segment's start is pushed to `curr.end_ms + gap_ms` when needed.  Each
Python iteration touches only the current pair's fields, so the in-place
loop and this recursion agree. -/
def fix_overlaps (min_duration_ms gap_ms : Int) :
    SubtitleSegment → List SubtitleSegment → List SubtitleSegment
  | curr, [] => [curr]
  | curr, next :: rest =>
    if curr.end_ms ≥ next.start_ms then
      let e1 := next.start_ms - gap_ms
      if e1 - curr.start_ms < min_duration_ms then
        let e2 := curr.start_ms + min_duration_ms
        let ns := if e2 + gap_ms > next.start_ms then e2 + gap_ms else next.start_ms
        { curr with end_ms := e2 } ::
          fix_overlaps min_duration_ms gap_ms { next with start_ms := ns } rest
      else
        { curr with end_ms := e1 } :: fix_overlaps min_duration_ms gap_ms next rest
    else
      curr :: fix_overlaps min_duration_ms gap_ms next rest

/-- Overlap resolution on a whole list (the `for i in range(len-1)` loop
runs over consecutive pairs; an empty list is left untouched). -/
def fix_overlaps_list (min_duration_ms gap_ms : Int) :
    List SubtitleSegment → List SubtitleSegment
  | [] => []
  | s :: rest => fix_overlaps min_duration_ms gap_ms s rest

/-- The per-segment loop of the main-module redistribution
(src/main.py:872-905), over the zip of the group with its word counts,
carrying `current_start_ms`.  Non-last segments receive
`max(int(content_duration_ms * words/total_words), min_duration_ms)`
capped so that every remaining segment can still receive
`min_duration_ms` plus a gap; the written end is additionally forced up to
`current_start_ms + min_duration_ms`, and the next start adds `gap_ms`.
The float product is embedded as exact truncated division, as above. -/
def redistribute_loop_main
    (total_words content_duration_ms min_duration_ms gap_ms group_end_ms : Int) :
    Int → List (SubtitleSegment × Int) → List SubtitleSegment
  | _, [] => []
  | current_start_ms, (segment, words) :: rest =>
    let segment_end_ms :=
      if rest.isEmpty then group_end_ms
      else
        let proportional_duration := Int.tdiv (content_duration_ms * words) total_words
        let actual_duration := max proportional_duration min_duration_ms
        let e := current_start_ms + actual_duration
        let remaining_segments : Int := (rest.length : Int)
        let remaining_time_needed :=
          remaining_segments * min_duration_ms + remaining_segments * gap_ms
        let max_allowed_end := group_end_ms - remaining_time_needed
        if e > max_allowed_end then max_allowed_end else e
    let new_end := max (current_start_ms + min_duration_ms) segment_end_ms
    { segment with start_ms := current_start_ms, end_ms := new_end } ::
      redistribute_loop_main total_words content_duration_ms min_duration_ms
        gap_ms group_end_ms (new_end + gap_ms) rest

/-- Embeds `redistribute_timing_in_group(group, min_duration_ms, gap_ms)`
of src/main.py:833-927: degenerate groups (size at most 1, zero total
words, non-positive total duration) are returned unchanged; otherwise the
gap is shrunk adaptively when the reserved gap time exceeds the available
span (`gap_ms = max(10, total_available_ms // (len(group) * 4))`, Python
floor division of positive operands embedded as `Int` division), timing is
rebuilt proportionally, the last end is pinned to the group end, and the
overlap post-pass runs. -/
def redistribute_timing_in_group_main (group : List SubtitleSegment)
    (min_duration_ms gap_ms : Int) : List SubtitleSegment :=
  match group with
  | [] => []
  | [s] => [s]
  | g0 :: g1 :: gs =>
    let grp := g0 :: g1 :: gs
    let word_counts := grp.map (fun seg => (count_words_in_text seg.text : Int))
    let total_words := word_counts.sum
    if total_words = 0 then grp
    else
      let group_start_ms := g0.start_ms
      let group_end_ms := ((g1 :: gs).getLastD g0).end_ms
      let total_available_ms := group_end_ms - group_start_ms
      if total_available_ms ≤ 0 then grp
      else
        let num_gaps : Int := ((g1 :: gs).length : Int)
        let total_gap_ms := num_gaps * gap_ms
        let content0 := total_available_ms - total_gap_ms
        let gap' :=
          if content0 ≤ 0 then max 10 (total_available_ms / ((grp.length : Int) * 4))
          else gap_ms
        let content_duration_ms :=
          if content0 ≤ 0 then total_available_ms - num_gaps * gap' else content0
        fix_overlaps_list min_duration_ms gap'
          (setLastEnd group_end_ms
            (redistribute_loop_main total_words content_duration_ms
              min_duration_ms gap' group_end_ms group_start_ms
              (grp.zip word_counts)))

lemma setLastEnd_map_start (e : Int) :
    ∀ l : List SubtitleSegment,
      (setLastEnd e l).map (fun s => s.start_ms) = l.map (fun s => s.start_ms)
  | [] => rfl
  | [s] => rfl
  | s :: t :: rest => by
    simp only [setLastEnd, List.map_cons, List.cons.injEq, true_and]
    exact setLastEnd_map_start e (t :: rest)

lemma setLastEnd_map_end_getLast (e : Int) :
    ∀ l : List SubtitleSegment, l ≠ [] →
      ((setLastEnd e l).map (fun s => s.end_ms)).getLast? = some e
  | [], h => absurd rfl h
  | [s], _ => rfl
  | s :: t :: rest, _ => by
    have ih := setLastEnd_map_end_getLast e (t :: rest) (by simp)
    cases hrec : setLastEnd e (t :: rest) with
    | nil => simp [hrec] at ih
    | cons u us =>
      simp only [setLastEnd, hrec, List.map_cons]
      rw [List.getLast?_cons_cons]
      rw [hrec, List.map_cons] at ih
      exact ih

lemma setLastEnd_ne_nil (e : Int) :
    ∀ l : List SubtitleSegment, l ≠ [] → setLastEnd e l ≠ []
  | [], h => absurd rfl h
  | [s], _ => by simp [setLastEnd]
  | s :: t :: rest, _ => by simp [setLastEnd]

lemma redistribute_loop_tr_cons (tw td mind ge cs : Int)
    (seg : SubtitleSegment) (w : Int) (ps : List (SubtitleSegment × Int)) :
    ∃ x xs, redistribute_loop_tr tw td mind ge cs ((seg, w) :: ps) = x :: xs ∧
      x.start_ms = cs := by
  refine ⟨_, _, rfl, rfl⟩

lemma redistribute_loop_main_cons (tw cd mind gap ge cs : Int)
    (seg : SubtitleSegment) (w : Int) (ps : List (SubtitleSegment × Int)) :
    ∃ x xs, redistribute_loop_main tw cd mind gap ge cs ((seg, w) :: ps) = x :: xs ∧
      x.start_ms = cs := by
  refine ⟨_, _, rfl, rfl⟩

/-- The non-overlap relation of the spec: the next segment starts no
earlier than the previous one ends. -/
def nonOverlap (a b : SubtitleSegment) : Prop := a.end_ms ≤ b.start_ms

lemma redistribute_loop_tr_chain (tw td mind ge : Int) :
    ∀ (ps : List (SubtitleSegment × Int)) (cs : Int),
      List.Chain' nonOverlap (redistribute_loop_tr tw td mind ge cs ps) := by
  intro ps
  induction ps with
  | nil => intro cs; simp [redistribute_loop_tr]
  | cons p ps ih =>
    intro cs
    obtain ⟨seg, w⟩ := p
    simp only [redistribute_loop_tr]
    refine List.chain'_cons'.mpr ⟨?_, ih _⟩
    intro y hy
    cases ps with
    | nil => simp [redistribute_loop_tr] at hy
    | cons q qs =>
      obtain ⟨seg2, w2⟩ := q
      obtain ⟨x, xs, he, hs⟩ := redistribute_loop_tr_cons tw td mind ge _ seg2 w2 qs
      rw [he] at hy
      simp at hy
      subst hy
      simpa [nonOverlap, hs] using le_refl _

lemma setLastEnd_head_start :
    ∀ (l : List SubtitleSegment) (e : Int) (hne : l ≠ []),
      ∃ x xs, setLastEnd e l = x :: xs ∧
        x.start_ms = (l.headD ⟨0, 0, 0, []⟩).start_ms
  | [], _, hne => absurd rfl hne
  | [s], e, _ => ⟨_, _, rfl, rfl⟩
  | s :: t :: rest, e, _ => ⟨_, _, rfl, rfl⟩

lemma setLastEnd_chain (e : Int) :
    ∀ l : List SubtitleSegment, List.Chain' nonOverlap l →
      List.Chain' nonOverlap (setLastEnd e l)
  | [], _ => by simp [setLastEnd]
  | [s], _ => by simp [setLastEnd]
  | s :: t :: rest, h => by
    simp only [setLastEnd]
    obtain ⟨hst, htail⟩ := List.chain'_cons.mp h
    have ih := setLastEnd_chain e (t :: rest) htail
    obtain ⟨x, xs, hx, hxs⟩ := setLastEnd_head_start (t :: rest) e (by simp)
    rw [hx]
    refine List.chain'_cons'.mpr ⟨?_, by rw [hx] at ih; exact ih⟩
    intro y hy
    simp at hy
    subst hy
    simpa [nonOverlap, hxs] using hst

lemma fix_overlaps_head_start (mind gap : Int) :
    ∀ (rest : List SubtitleSegment) (c : SubtitleSegment),
      ∃ x xs, fix_overlaps mind gap c rest = x :: xs ∧ x.start_ms = c.start_ms := by
  intro rest c
  cases rest with
  | nil => exact ⟨_, _, rfl, rfl⟩
  | cons next r =>
    by_cases h1 : c.end_ms ≥ next.start_ms
    · by_cases h2 : next.start_ms - gap - c.start_ms < mind
      · simp only [fix_overlaps, if_pos h1, if_pos h2]
        exact ⟨_, _, rfl, rfl⟩
      · simp only [fix_overlaps, if_pos h1, if_neg h2]
        exact ⟨_, _, rfl, rfl⟩
    · simp only [fix_overlaps, if_neg h1]
      exact ⟨_, _, rfl, rfl⟩

lemma fix_overlaps_chain (mind gap : Int) (hg : 0 ≤ gap) :
    ∀ (rest : List SubtitleSegment) (c : SubtitleSegment),
      List.Chain' nonOverlap (fix_overlaps mind gap c rest) := by
  intro rest
  induction rest with
  | nil => intro c; simp [fix_overlaps]
  | cons next r ih =>
    intro c
    by_cases h1 : c.end_ms ≥ next.start_ms
    · by_cases h2 : next.start_ms - gap - c.start_ms < mind
      · simp only [fix_overlaps, if_pos h1, if_pos h2]
        refine List.chain'_cons'.mpr ⟨?_, ih _⟩
        intro y hy
        obtain ⟨x, xs, hx, hxs⟩ := fix_overlaps_head_start mind gap r
          { next with start_ms := if c.start_ms + mind + gap > next.start_ms
              then c.start_ms + mind + gap else next.start_ms }
        rw [hx] at hy
        simp at hy
        subst hy
        simp only [nonOverlap, hxs]
        by_cases h3 : c.start_ms + mind + gap > next.start_ms
        · simp [h3]; linarith
        · simp [h3]; linarith [not_lt.mp h3]
      · simp only [fix_overlaps, if_pos h1, if_neg h2]
        refine List.chain'_cons'.mpr ⟨?_, ih _⟩
        intro y hy
        obtain ⟨x, xs, hx, hxs⟩ := fix_overlaps_head_start mind gap r next
        rw [hx] at hy
        simp at hy
        subst hy
        simp only [nonOverlap, hxs]
        linarith
    · simp only [fix_overlaps, if_neg h1]
      refine List.chain'_cons'.mpr ⟨?_, ih _⟩
      intro y hy
      obtain ⟨x, xs, hx, hxs⟩ := fix_overlaps_head_start mind gap r next
      rw [hx] at hy
      simp at hy
      subst hy
      simp only [nonOverlap, hxs]
      linarith [not_le.mp (by simpa using h1)]

lemma fix_overlaps_ne_nil (mind gap : Int) (c : SubtitleSegment)
    (rest : List SubtitleSegment) : fix_overlaps mind gap c rest ≠ [] := by
  obtain ⟨x, xs, hx, _⟩ := fix_overlaps_head_start mind gap rest c
  simp [hx]

lemma fix_overlaps_map_end_getLast (mind gap : Int) :
    ∀ (rest : List SubtitleSegment) (c : SubtitleSegment),
      ((fix_overlaps mind gap c rest).map (fun s => s.end_ms)).getLast? =
        ((c :: rest).map (fun s => s.end_ms)).getLast? := by
  intro rest
  induction rest with
  | nil => intro c; simp [fix_overlaps]
  | cons next r ih =>
    intro c
    by_cases h1 : c.end_ms ≥ next.start_ms
    · by_cases h2 : next.start_ms - gap - c.start_ms < mind
      · simp only [fix_overlaps, if_pos h1, if_pos h2]
        set n' : SubtitleSegment :=
          { next with start_ms := if c.start_ms + mind + gap > next.start_ms
              then c.start_ms + mind + gap else next.start_ms } with hn'
        obtain ⟨x, xs, hx, _⟩ := fix_overlaps_head_start mind gap r n'
        have h3 := ih n'
        rw [hx] at h3 ⊢
        simp only [List.map_cons] at h3 ⊢
        rw [List.getLast?_cons_cons, h3, List.getLast?_cons_cons]
      · simp only [fix_overlaps, if_pos h1, if_neg h2]
        obtain ⟨x, xs, hx, _⟩ := fix_overlaps_head_start mind gap r next
        have h3 := ih next
        rw [hx] at h3 ⊢
        simp only [List.map_cons] at h3 ⊢
        rw [List.getLast?_cons_cons, h3, List.getLast?_cons_cons]
    · simp only [fix_overlaps, if_neg h1]
      obtain ⟨x, xs, hx, _⟩ := fix_overlaps_head_start mind gap r next
      have h3 := ih next
      rw [hx] at h3 ⊢
      simp only [List.map_cons] at h3 ⊢
      rw [List.getLast?_cons_cons, h3, List.getLast?_cons_cons]

instance (g : Int) (a b : SubtitleSegment) : Decidable (contAdj g a b) :=
  inferInstanceAs (Decidable (b.start_ms - a.end_ms ≤ g))

instance (a b : SubtitleSegment) : Decidable (nonOverlap a b) :=
  inferInstanceAs (Decidable (a.end_ms ≤ b.start_ms))

lemma groupEndMs_cons_cons (g0 g1 : SubtitleSegment) (gs : List SubtitleSegment) :
    groupEndMs (g0 :: g1 :: gs) = ((g1 :: gs).getLastD g0).end_ms := by
  unfold groupEndMs
  rw [List.getLastD_cons]

lemma redistribute_loop_tr_ne_nil (tw td mind ge cs : Int)
    (ps : List (SubtitleSegment × Int)) (h : ps ≠ []) :
    redistribute_loop_tr tw td mind ge cs ps ≠ [] := by
  cases ps with
  | nil => exact absurd rfl h
  | cons p q => obtain ⟨seg, w⟩ := p; simp [redistribute_loop_tr]

lemma redistribute_loop_tr_head_start (tw td mind ge cs : Int)
    (ps : List (SubtitleSegment × Int)) (h : ps ≠ []) :
    ((redistribute_loop_tr tw td mind ge cs ps).map
      (fun s => s.start_ms)).head? = some cs := by
  cases ps with
  | nil => exact absurd rfl h
  | cons p q => obtain ⟨seg, w⟩ := p; simp [redistribute_loop_tr]

lemma redistribute_loop_main_ne_nil (tw cd mind gap ge cs : Int)
    (ps : List (SubtitleSegment × Int)) (h : ps ≠ []) :
    redistribute_loop_main tw cd mind gap ge cs ps ≠ [] := by
  cases ps with
  | nil => exact absurd rfl h
  | cons p q => obtain ⟨seg, w⟩ := p; simp [redistribute_loop_main]

lemma redistribute_loop_main_head_start (tw cd mind gap ge cs : Int)
    (ps : List (SubtitleSegment × Int)) (h : ps ≠ []) :
    ((redistribute_loop_main tw cd mind gap ge cs ps).map
      (fun s => s.start_ms)).head? = some cs := by
  cases ps with
  | nil => exact absurd rfl h
  | cons p q => obtain ⟨seg, w⟩ := p; simp [redistribute_loop_main]

lemma fix_overlaps_list_map_start_head (mind gap : Int)
    (l : List SubtitleSegment) :
    ((fix_overlaps_list mind gap l).map (fun s => s.start_ms)).head? =
      (l.map (fun s => s.start_ms)).head? := by
  cases l with
  | nil => rfl
  | cons s rest =>
    simp only [fix_overlaps_list]
    obtain ⟨x, xs, hx, hxs⟩ := fix_overlaps_head_start mind gap rest s
    rw [hx]
    simp [hxs]

lemma fix_overlaps_list_map_end_getLast (mind gap : Int)
    (l : List SubtitleSegment) :
    ((fix_overlaps_list mind gap l).map (fun s => s.end_ms)).getLast? =
      (l.map (fun s => s.end_ms)).getLast? := by
  cases l with
  | nil => rfl
  | cons s rest =>
    simp only [fix_overlaps_list]
    exact fix_overlaps_map_end_getLast mind gap rest s

/-- C7: both `redistribute_timing_in_group` implementations
(src/main.py:833-851, src/timing_redistributor.py:123-143) are the
identity on degenerate input: a group of size 0 or 1, a group with zero
total word count, or a group with non-positive total duration is returned
completely unchanged (same segments, same timing, same text); the
embedding is a total function, so no exception can arise. -/
theorem redistribute_timing_in_group_passthrough
    (group : List SubtitleSegment) (min_duration_ms gap_ms : Int)
    (h : group.length ≤ 1 ∨ groupTotalWords group = 0 ∨
      groupEndMs group - groupStartMs group ≤ 0) :
    redistribute_timing_in_group_main group min_duration_ms gap_ms = group ∧
    redistribute_timing_in_group_tr group min_duration_ms = group := by
  match group with
  | [] => exact ⟨rfl, rfl⟩
  | [s] => exact ⟨rfl, rfl⟩
  | g0 :: g1 :: gs =>
    rcases h with hlen | hw | hd
    · simp at hlen
    · simp only [groupTotalWords] at hw
      constructor
      · simp only [redistribute_timing_in_group_main]
        rw [if_pos hw]
      · simp only [redistribute_timing_in_group_tr]
        rw [if_pos hw]
    · rw [groupEndMs_cons_cons] at hd
      have hst : groupStartMs (g0 :: g1 :: gs) = g0.start_ms := rfl
      rw [hst] at hd
      by_cases hw : ((g0 :: g1 :: gs).map
          (fun seg => (count_words_in_text seg.text : Int))).sum = 0
      · constructor
        · simp only [redistribute_timing_in_group_main]
          rw [if_pos hw]
        · simp only [redistribute_timing_in_group_tr]
          rw [if_pos hw]
      · constructor
        · simp only [redistribute_timing_in_group_main]
          rw [if_neg hw, if_pos hd]
        · simp only [redistribute_timing_in_group_tr]
          rw [if_neg hw, if_pos hd]

/-- C1: for every continuity group with at least two segments, positive
total word count and positive total duration, both
`redistribute_timing_in_group` implementations return a list whose first
segment starts exactly at the group's original start and whose last
segment ends exactly at the group's original end; the embedding is a
total function, so no exception is raised. -/
theorem redistribute_timing_preserves_boundaries
    (g0 g1 : SubtitleSegment) (gs : List SubtitleSegment)
    (min_duration_ms gap_ms : Int)
    (hw : groupTotalWords (g0 :: g1 :: gs) ≠ 0)
    (hd : 0 < groupEndMs (g0 :: g1 :: gs) - groupStartMs (g0 :: g1 :: gs)) :
    (((redistribute_timing_in_group_tr (g0 :: g1 :: gs) min_duration_ms).map
        (fun s => s.start_ms)).head? = some (groupStartMs (g0 :: g1 :: gs)) ∧
      ((redistribute_timing_in_group_tr (g0 :: g1 :: gs) min_duration_ms).map
        (fun s => s.end_ms)).getLast? = some (groupEndMs (g0 :: g1 :: gs))) ∧
    (((redistribute_timing_in_group_main (g0 :: g1 :: gs) min_duration_ms gap_ms).map
        (fun s => s.start_ms)).head? = some (groupStartMs (g0 :: g1 :: gs)) ∧
      ((redistribute_timing_in_group_main (g0 :: g1 :: gs) min_duration_ms gap_ms).map
        (fun s => s.end_ms)).getLast? = some (groupEndMs (g0 :: g1 :: gs))) := by
  simp only [groupTotalWords] at hw
  rw [groupEndMs_cons_cons] at hd
  have hst : groupStartMs (g0 :: g1 :: gs) = g0.start_ms := rfl
  rw [hst] at hd
  have hd' : ¬ ((g1 :: gs).getLastD g0).end_ms - g0.start_ms ≤ 0 := by linarith
  have hzip : (g0 :: g1 :: gs).zip ((g0 :: g1 :: gs).map
      (fun seg => (count_words_in_text seg.text : Int))) ≠ [] := by simp
  constructor
  · simp only [redistribute_timing_in_group_tr]
    rw [if_neg hw, if_neg hd']
    constructor
    · rw [setLastEnd_map_start, redistribute_loop_tr_head_start _ _ _ _ _ _ hzip]
      rfl
    · rw [setLastEnd_map_end_getLast _ _
        (redistribute_loop_tr_ne_nil _ _ _ _ _ _ hzip), groupEndMs_cons_cons]
  · simp only [redistribute_timing_in_group_main]
    rw [if_neg hw, if_neg hd']
    constructor
    · rw [fix_overlaps_list_map_start_head, setLastEnd_map_start,
        redistribute_loop_main_head_start _ _ _ _ _ _ _ hzip]
      rfl
    · rw [fix_overlaps_list_map_end_getLast,
        setLastEnd_map_end_getLast _ _
          (redistribute_loop_main_ne_nil _ _ _ _ _ _ _ hzip), groupEndMs_cons_cons]

/-- Concrete segments used as witnesses for the redistribution claims:
a two-segment continuity group with three words and a 3000ms span. -/
def wSegA : SubtitleSegment := ⟨1, 0, 1000, ['h', 'i', ' ', 'y', 'o']⟩

/-- Second witness segment. -/
def wSegB : SubtitleSegment := ⟨2, 1200, 3000, ['a']⟩

/-- Witness for C1: the boundary-preservation theorem applied to the
concrete group `[wSegA, wSegB]` with defaults 1200/30; the hypotheses
evaluate by `decide`. -/
theorem redistribute_timing_preserves_boundaries_witness :
    (((redistribute_timing_in_group_tr (wSegA :: wSegB :: []) 1200).map
        (fun s => s.start_ms)).head? = some (groupStartMs (wSegA :: wSegB :: [])) ∧
      ((redistribute_timing_in_group_tr (wSegA :: wSegB :: []) 1200).map
        (fun s => s.end_ms)).getLast? = some (groupEndMs (wSegA :: wSegB :: []))) ∧
    (((redistribute_timing_in_group_main (wSegA :: wSegB :: []) 1200 30).map
        (fun s => s.start_ms)).head? = some (groupStartMs (wSegA :: wSegB :: [])) ∧
      ((redistribute_timing_in_group_main (wSegA :: wSegB :: []) 1200 30).map
        (fun s => s.end_ms)).getLast? = some (groupEndMs (wSegA :: wSegB :: []))) :=
  redistribute_timing_preserves_boundaries wSegA wSegB [] 1200 30
    (by decide) (by decide)

/-- Witness for C7: the pass-through theorem applied to the concrete
singleton group `[wSegA]`. -/
theorem redistribute_timing_in_group_passthrough_witness :
    redistribute_timing_in_group_main [wSegA] 1200 30 = [wSegA] ∧
    redistribute_timing_in_group_tr [wSegA] 1200 = [wSegA] :=
  redistribute_timing_in_group_passthrough [wSegA] 1200 30 (Or.inl (by decide))

/-- C2 (amended): for every continuity group with at least two segments
that is actually redistributed (non-zero total words, positive total
duration, non-negative gap parameter), both implementations return a list
in which every adjacent pair satisfies `next.start_ms >= prev.end_ms`. -/
theorem redistribute_timing_nonoverlap
    (g0 g1 : SubtitleSegment) (gs : List SubtitleSegment)
    (min_duration_ms gap_ms : Int) (hgap : 0 ≤ gap_ms)
    (hw : groupTotalWords (g0 :: g1 :: gs) ≠ 0)
    (hd : 0 < groupEndMs (g0 :: g1 :: gs) - groupStartMs (g0 :: g1 :: gs)) :
    List.Chain' nonOverlap
      (redistribute_timing_in_group_main (g0 :: g1 :: gs) min_duration_ms gap_ms) ∧
    List.Chain' nonOverlap
      (redistribute_timing_in_group_tr (g0 :: g1 :: gs) min_duration_ms) := by
  simp only [groupTotalWords] at hw
  rw [groupEndMs_cons_cons] at hd
  have hst : groupStartMs (g0 :: g1 :: gs) = g0.start_ms := rfl
  rw [hst] at hd
  have hd' : ¬ ((g1 :: gs).getLastD g0).end_ms - g0.start_ms ≤ 0 := by linarith
  constructor
  · simp only [redistribute_timing_in_group_main]
    rw [if_neg hw, if_neg hd']
    have hgap' : 0 ≤ (if ((g1 :: gs).getLastD g0).end_ms - g0.start_ms -
        ((g1 :: gs).length : Int) * gap_ms ≤ 0 then
        max 10 ((((g1 :: gs).getLastD g0).end_ms - g0.start_ms) /
          (((g0 :: g1 :: gs).length : Int) * 4))
        else gap_ms) := by
      by_cases hcase : ((g1 :: gs).getLastD g0).end_ms - g0.start_ms -
          ((g1 :: gs).length : Int) * gap_ms ≤ 0
      · rw [if_pos hcase]
        have : (10 : Int) ≤ max 10 ((((g1 :: gs).getLastD g0).end_ms - g0.start_ms) /
            (((g0 :: g1 :: gs).length : Int) * 4)) := le_max_left _ _
        linarith
      · rw [if_neg hcase]; exact hgap
    cases hsl : setLastEnd (((g1 :: gs).getLastD g0).end_ms)
      (redistribute_loop_main _ _ min_duration_ms _ _ g0.start_ms
        ((g0 :: g1 :: gs).zip ((g0 :: g1 :: gs).map
          (fun seg => (count_words_in_text seg.text : Int))))) with
    | nil => simp [fix_overlaps_list]
    | cons y ys =>
      simp only [fix_overlaps_list]
      exact fix_overlaps_chain min_duration_ms _ hgap' ys y
  · simp only [redistribute_timing_in_group_tr]
    rw [if_neg hw, if_neg hd']
    exact setLastEnd_chain _ _ (redistribute_loop_tr_chain _ _ _ _ _ _)

/-- Witness for C2's amended theorem: non-overlap at the concrete group
`[wSegA, wSegB]` with defaults 1200/30. -/
theorem redistribute_timing_nonoverlap_witness :
    List.Chain' nonOverlap
      (redistribute_timing_in_group_main (wSegA :: wSegB :: []) 1200 30) ∧
    List.Chain' nonOverlap
      (redistribute_timing_in_group_tr (wSegA :: wSegB :: []) 1200) :=
  redistribute_timing_nonoverlap wSegA wSegB [] 1200 30
    (by decide) (by decide) (by decide)

/-- Overlapping two-segment continuity group whose texts hold no words
(tags only), so both implementations pass it through unchanged. -/
def zeroWordGroup : List SubtitleSegment :=
  [⟨1, 0, 1000, ['<', 'i', '>']⟩, ⟨2, 500, 900, ['<', 'b', '>']⟩]

/-- Counterexample to C2 as stated: `zeroWordGroup` is a genuine
continuity group (gap -500 <= 500) with two segments, yet both
`redistribute_timing_in_group` implementations return it unchanged (its
total word count is zero), and the returned list has an adjacent pair
with `next.start_ms < prev.end_ms`: the claimed universal non-overlap
fails on groups that the function passes through untouched. -/
theorem redistribute_timing_nonoverlap_cex :
    List.Chain' (contAdj 500) zeroWordGroup ∧
    2 ≤ zeroWordGroup.length ∧
    redistribute_timing_in_group_main zeroWordGroup 1200 30 = zeroWordGroup ∧
    redistribute_timing_in_group_tr zeroWordGroup 1200 = zeroWordGroup ∧
    ¬ List.Chain' nonOverlap
        (redistribute_timing_in_group_main zeroWordGroup 1200 30) ∧
    ¬ List.Chain' nonOverlap
        (redistribute_timing_in_group_tr zeroWordGroup 1200) := by
  have hmain : redistribute_timing_in_group_main zeroWordGroup 1200 30 =
      zeroWordGroup := by decide
  have htr : redistribute_timing_in_group_tr zeroWordGroup 1200 =
      zeroWordGroup := by decide
  refine ⟨?_, by decide, hmain, htr, ?_, ?_⟩
  · simp [zeroWordGroup, List.chain'_cons, contAdj]
  · rw [hmain]
    simp [zeroWordGroup, List.chain'_cons, nonOverlap]
  · rw [htr]
    simp [zeroWordGroup, List.chain'_cons, nonOverlap]

/-- The final timing sanity checks of `split_advanced_segments`
(src/main.py:560-584): a computed split is discarded (the original
segment is kept) when `first_end_time <= start_ms` or
`second_start_time >= end_ms`, and again when either child would have
zero duration; otherwise the pair of boundary times is accepted. -/
def split_sanity_guard (start_ms end_ms : Int) (p : Int × Int) :
    Option (Int × Int) :=
  if p.1 ≤ start_ms ∨ p.2 ≥ end_ms then none
  else if p.1 = start_ms then none
  else if p.2 = end_ms then none
  else some p

lemma split_sanity_guard_some (s e : Int) (p : Int × Int)
    (h1 : s < p.1) (h2 : p.2 < e) : split_sanity_guard s e p = some p := by
  unfold split_sanity_guard
  rw [if_neg, if_neg, if_neg]
  · intro h; rw [h] at h2; exact absurd h2 (lt_irrefl e)
  · intro h; rw [h] at h1; exact absurd h1 (lt_irrefl s)
  · rintro (h | h)
    · exact absurd (lt_of_lt_of_le h1 h) (lt_irrefl _)
    · exact absurd (lt_of_lt_of_le h2 h) (lt_irrefl _)

/-- The first-child duration computation of `split_advanced_segments`
(src/main.py:534-558).  With words present, the ideal duration is
`int(available_duration * first_words/total_words)` (float truncation,
embedded as exact truncated division), floored at
`min_segment_duration`; if the second child would fall below the
minimum it is clamped to the minimum and the first child absorbs the
rest; if the first child then falls below the minimum an equal split
`available_duration // 2` is used.  With no words, the fallback is
`max(min_segment_duration, available_duration // 2)` (Python floor
division embedded as `Int` division). -/
def split_first_duration (min_segment_duration available_duration : Int)
    (first_words second_words : Nat) : Int :=
  if 0 < first_words + second_words then
    let ideal_first_duration :=
      Int.tdiv (available_duration * (first_words : Int))
        ((first_words + second_words : Nat) : Int)
    let first_duration := max min_segment_duration ideal_first_duration
    let second_duration := available_duration - first_duration
    let fd2 := if second_duration < min_segment_duration then
        available_duration - min_segment_duration
      else first_duration
    if fd2 < min_segment_duration then available_duration / 2 else fd2
  else
    max min_segment_duration (available_duration / 2)

/-- The timing stage of `split_advanced_segments` for one oversized
segment whose split point has been found (src/main.py:511-584): the
split is skipped (None, the segment stays intact) when the total
duration is below `min_segment_duration * 2 + 100` (=500ms) or when the
available duration after reserving the 30ms gap is at most
`min_segment_duration * 2`; otherwise the first child's end and second
child's start are computed and passed through the sanity guard.  A
`some` result means the segment is replaced by two children with these
boundary times. -/
def split_timing_decision (start_ms end_ms : Int)
    (first_words second_words : Nat) : Option (Int × Int) :=
  let total_duration := end_ms - start_ms
  let min_segment_duration : Int := 200
  let required_total_duration := min_segment_duration * 2 + 100
  if total_duration < required_total_duration then none
  else
    let gap_ms : Int := 30
    let available_duration := total_duration - gap_ms
    if available_duration ≤ min_segment_duration * 2 then none
    else
      let first_duration := split_first_duration min_segment_duration
        available_duration first_words second_words
      let first_end_time := start_ms + first_duration
      let second_start_time := first_end_time + gap_ms
      split_sanity_guard start_ms end_ms (first_end_time, second_start_time)

lemma split_first_duration_bounds (avail : Int) (fw sw : Nat)
    (h : 400 < avail) :
    200 ≤ split_first_duration 200 avail fw sw ∧
      split_first_duration 200 avail fw sw ≤ avail - 200 := by
  unfold split_first_duration
  by_cases htw : 0 < fw + sw
  · rw [if_pos htw]
    by_cases hsd : avail - max 200 (Int.tdiv (avail * (fw : Int))
        ((fw + sw : Nat) : Int)) < 200
    · simp only [if_pos hsd]
      have : ¬ (avail - 200 < 200) := by intro hc; linarith
      rw [if_neg this]
      constructor <;> linarith
    · simp only [if_neg hsd]
      have h200 : (200 : Int) ≤ max 200 (Int.tdiv (avail * (fw : Int))
          ((fw + sw : Nat) : Int)) := le_max_left _ _
      rw [if_neg (by linarith)]
      constructor
      · exact h200
      · linarith [not_lt.mp hsd]
  · rw [if_neg htw]
    constructor
    · exact le_max_left _ _
    · have hhalf : avail / 2 ≤ avail - 200 := by omega
      have h200 : (200 : Int) ≤ avail - 200 := by linarith
      exact max_le h200 hhalf

/-- C3: the safety floor of the splitter.  For every oversized segment
with a found split point, the split is performed (two children are
emitted) exactly when the segment's total duration reaches 500ms
(`min_segment_duration * 2 + 100` in the code); any shorter segment is
emitted intact.  In particular a duration below the spec's literal
formula `2*min_segment_duration + gap = 430ms` is also emitted intact,
and every performed split has duration at least 500ms, hence at least
430ms, so both readings of the claimed floor hold. -/
theorem split_timing_decision_safety_floor (s e : Int) (fw sw : Nat) :
    split_timing_decision s e fw sw = none ↔ e - s < 500 := by
  unfold split_timing_decision
  by_cases h1 : e - s < 200 * 2 + 100
  · rw [if_pos h1]
    constructor
    · intro _; linarith
    · intro _; rfl
  · rw [if_neg h1]
    have h1' : ¬ e - s < 500 := by intro h; exact h1 (by linarith)
    have havail : ¬ (e - s - 30 ≤ 200 * 2) := by
      intro h; exact h1 (by linarith)
    rw [if_neg havail]
    obtain ⟨hlo, hhi⟩ := split_first_duration_bounds (e - s - 30) fw sw
      (by linarith [not_le.mp havail])
    rw [split_sanity_guard_some s e _ (by simp only; linarith)
      (by simp only; linarith)]
    constructor
    · intro h; exact absurd h (by simp)
    · intro h; exact absurd h h1'

/-- Witness is not needed for C3's theorem (no hypotheses), but the
concrete split of Scenario A's 4000ms segment is recorded: a 4000ms
segment with a 2-word and a 6-word half is split, while a 450ms segment
is kept intact even though 450 is above the literal 430ms formula. -/
theorem split_timing_decision_examples :
    split_timing_decision 0 4000 2 6 = some (992, 1022) ∧
    split_timing_decision 0 450 2 6 = none ∧
    split_timing_decision 0 499 2 6 = none ∧
    (split_timing_decision 0 500 2 6).isSome = true := by
  refine ⟨by decide, by decide, by decide, by decide⟩

/-- Embeds Python str.split(sep) for a single-character separator: empty
fields are kept, the empty string yields one empty field. -/
def splitOnChar (sep : Char) : List Char → List (List Char)
  | [] => [[]]
  | c :: rest =>
    let r := splitOnChar sep rest
    if c = sep then [] :: r
    else
      match r with
      | [] => [[c]]
      | x :: xs => (c :: x) :: xs

/-- ASCII decimal digit test. -/
def isAsciiDigit (c : Char) : Bool := '0' ≤ c && c ≤ '9'

/-- Numeric value of a digit character. -/
def digitVal (c : Char) : Nat := c.toNat - '0'.toNat

/-- Value of a digit string, most significant first. -/
def digitsToNat (ds : List Char) : Nat :=
  ds.foldl (fun acc c => acc * 10 + digitVal c) 0

/-- Embeds Python int(str): strips whitespace, accepts an optional sign
followed by one or more decimal digits, and fails (ValueError, here
`none`) otherwise.  Underscore digit grouping and non-ASCII digits
accepted by CPython are not modelled; none occur in timestamp data. -/
def pythonInt (s : List Char) : Option Int :=
  match pyStrip s with
  | [] => none
  | c :: ds =>
    if c = '+' then
      if ds.isEmpty then none
      else if ds.all isAsciiDigit then some ((digitsToNat ds : Nat) : Int) else none
    else if c = '-' then
      if ds.isEmpty then none
      else if ds.all isAsciiDigit then some (-((digitsToNat ds : Nat) : Int)) else none
    else
      if (c :: ds).all isAsciiDigit then some ((digitsToNat (c :: ds) : Nat) : Int)
      else none

/-- The arithmetic layer of `parse_timestamp` in
src/timing_redistributor.py:35-48: no range validation, the total is
computed from the parsed fields and clamped below at 0. -/
def parse_timestamp_fields_tr (hours minutes seconds milliseconds : Int) : Int :=
  max 0 ((hours * 3600 + minutes * 60 + seconds) * 1000 + milliseconds)

/-- The arithmetic layer of `parse_timestamp` in src/main.py:258-276:
out-of-range components (negative fields, minutes or seconds above 59,
milliseconds above 999) yield 0; otherwise the same total, clamped below
at 0. -/
def parse_timestamp_fields_main (hours minutes seconds milliseconds : Int) : Int :=
  if hours < 0 ∨ minutes < 0 ∨ minutes > 59 ∨ seconds < 0 ∨ seconds > 59 ∨
      milliseconds < 0 ∨ milliseconds > 999 then 0
  else max 0 ((hours * 3600 + minutes * 60 + seconds) * 1000 + milliseconds)

/-- Embeds `parse_timestamp(timestamp_str)` of
src/timing_redistributor.py:35-48: split on the comma into exactly two
parts, split the time part on colons into exactly three integers, parse
the millisecond part, and combine; every parse failure (wrong number of
parts, non-numeric field) is caught and yields 0. -/
def parse_timestamp_tr (timestamp_str : List Char) : Int :=
  match splitOnChar ',' timestamp_str with
  | [time_part, ms_part] =>
    match (splitOnChar ':' time_part).mapM pythonInt with
    | some [hours, minutes, seconds] =>
      match pythonInt ms_part with
      | some milliseconds => parse_timestamp_fields_tr hours minutes seconds milliseconds
      | none => 0
    | _ => 0
  | _ => 0

/-- Embeds `parse_timestamp(timestamp_str)` of src/main.py:258-276: same
parsing as the redistributor version, but the parsed fields go through
the range-validating arithmetic layer. -/
def parse_timestamp_main (timestamp_str : List Char) : Int :=
  match splitOnChar ',' timestamp_str with
  | [time_part, ms_part] =>
    match (splitOnChar ':' time_part).mapM pythonInt with
    | some [hours, minutes, seconds] =>
      match pythonInt ms_part with
      | some milliseconds => parse_timestamp_fields_main hours minutes seconds milliseconds
      | none => 0
    | _ => 0
  | _ => 0

/-- Counterexample to C5 as stated: on the well-formed timestamp
`00:60:00,000` whose minutes exceed 59, the claim predicts that the
arithmetic proceeds and returns 3600000; the `parse_timestamp` of
src/main.py instead validates the range and returns 0.  (The
redistributor version does proceed, as the second conjunct shows.) -/
theorem parse_timestamp_range_cex :
    parse_timestamp_main ("00:60:00,000").data = 0 ∧
    parse_timestamp_tr ("00:60:00,000").data = 3600000 ∧
    (0 : Int) ≠ 3600000 := by
  refine ⟨by decide, by decide, by decide⟩

/-- A parse failure of the embedded timestamp parsers: there is no full
success, i.e. no way to split on the comma into exactly two parts, parse
the colon-separated time part into exactly three integers, and parse the
millisecond part.  This covers a wrong comma count, a wrong colon count,
a non-numeric field, and a malformed millisecond field. -/
def parseFailure (cs : List Char) : Prop :=
  ∀ tp msp fh fm fs fms, splitOnChar ',' cs = [tp, msp] →
    (splitOnChar ':' tp).mapM pythonInt = some [fh, fm, fs] →
    pythonInt msp = some fms → False

lemma parse_timestamp_tr_err (cs : List Char) (herr : parseFailure cs) :
    parse_timestamp_tr cs = 0 := by
  unfold parse_timestamp_tr
  cases hsp : splitOnChar ',' cs with
  | nil => rfl
  | cons a t =>
    cases t with
    | nil => rfl
    | cons b u =>
      cases u with
      | cons c v => rfl
      | nil =>
        simp only []
        cases hmm : (splitOnChar ':' a).mapM pythonInt with
        | none => rfl
        | some l =>
          cases l with
          | nil => rfl
          | cons f1 l1 =>
            cases l1 with
            | nil => rfl
            | cons f2 l2 =>
              cases l2 with
              | nil => rfl
              | cons f3 l3 =>
                cases l3 with
                | cons f4 l4 => rfl
                | nil =>
                  simp only []
                  cases hms2 : pythonInt b with
                  | none => rfl
                  | some msv =>
                    exact (herr a b f1 f2 f3 msv hsp hmm hms2).elim

lemma parse_timestamp_main_err (cs : List Char) (herr : parseFailure cs) :
    parse_timestamp_main cs = 0 := by
  unfold parse_timestamp_main
  cases hsp : splitOnChar ',' cs with
  | nil => rfl
  | cons a t =>
    cases t with
    | nil => rfl
    | cons b u =>
      cases u with
      | cons c v => rfl
      | nil =>
        simp only []
        cases hmm : (splitOnChar ':' a).mapM pythonInt with
        | none => rfl
        | some l =>
          cases l with
          | nil => rfl
          | cons f1 l1 =>
            cases l1 with
            | nil => rfl
            | cons f2 l2 =>
              cases l2 with
              | nil => rfl
              | cons f3 l3 =>
                cases l3 with
                | cons f4 l4 => rfl
                | nil =>
                  simp only []
                  cases hms2 : pythonInt b with
                  | none => rfl
                  | some msv =>
                    exact (herr a b f1 f2 f3 msv hsp hmm hms2).elim

/-- C5 (amended): `parse_timestamp` never raises and yields 0 on any
parse error in both versions — whenever the comma split, the colon
split, any integer field parse, or the millisecond parse fails
(`parseFailure`), both parsers return 0; on well-formed fields with
minutes or seconds above 59 the timing_redistributor version still
computes `(hours*3600 + minutes*60 + seconds)*1000 + milliseconds` with
hours unbounded, while the main.py version validates ranges and
returns 0. -/
theorem parse_timestamp_out_of_range (cs : List Char) (h m s ms : Int)
    (herr : parseFailure cs)
    (hh : 0 ≤ h) (hm : 0 ≤ m) (hs : 0 ≤ s) (hms : 0 ≤ ms)
    (hrange : 59 < m ∨ 59 < s) :
    parse_timestamp_tr cs = 0 ∧ parse_timestamp_main cs = 0 ∧
    parse_timestamp_fields_tr h m s ms =
      (h * 3600 + m * 60 + s) * 1000 + ms ∧
    parse_timestamp_fields_main h m s ms = 0 := by
  refine ⟨parse_timestamp_tr_err cs herr, parse_timestamp_main_err cs herr,
    ?_, ?_⟩
  · unfold parse_timestamp_fields_tr
    have hnn : 0 ≤ (h * 3600 + m * 60 + s) * 1000 + ms := by
      have h1 : 0 ≤ h * 3600 + m * 60 + s := by
        have := mul_nonneg hh (by norm_num : (0:Int) ≤ 3600)
        have := mul_nonneg hm (by norm_num : (0:Int) ≤ 60)
        linarith
      have := mul_nonneg h1 (by norm_num : (0:Int) ≤ 1000)
      linarith
    exact max_eq_right hnn
  · unfold parse_timestamp_fields_main
    rcases hrange with hr | hr
    · rw [if_pos (Or.inr (Or.inr (Or.inl hr)))]
    · rw [if_pos (Or.inr (Or.inr (Or.inr (Or.inr (Or.inl hr)))))]

/-- Witness for C5's amended theorem: a malformed string with no comma
is a parse failure and parses to 0 in both versions, and the
out-of-range field values 0/60/0/0 proceed in the redistributor version
but validate to 0 in the main version. -/
theorem parse_timestamp_out_of_range_witness :
    parse_timestamp_tr ("garbage").data = 0 ∧
    parse_timestamp_main ("garbage").data = 0 ∧
    parse_timestamp_fields_tr 0 60 0 0 = (0 * 3600 + 60 * 60 + 0) * 1000 + 0 ∧
    parse_timestamp_fields_main 0 60 0 0 = 0 :=
  parse_timestamp_out_of_range ("garbage").data 0 60 0 0
    (fun tp msp fh fm fs fms heq _ _ => by
      have hc : (splitOnChar ',' ("garbage").data).length = 1 := by decide
      rw [heq] at hc
      simp at hc)
    (by decide) (by decide) (by decide) (by decide) (Or.inl (by decide))

/-- Model of the Python values a JSON translation response can hold:
strings, ints, booleans, None, lists, and string-keyed dicts (embedded
as association lists with unique keys, first binding wins). -/
inductive PyVal where
  | vstr : List Char → PyVal
  | vint : Int → PyVal
  | vbool : Bool → PyVal
  | vnull : PyVal
  | vlist : List PyVal → PyVal
  | vdict : List (String × PyVal) → PyVal

/-- Python truthiness for the modelled values: False, None, 0, empty
string and empty containers are falsy. -/
def pyTruthy : PyVal → Bool
  | .vstr s => !s.isEmpty
  | .vint n => n != 0
  | .vbool b => b
  | .vnull => false
  | .vlist l => !l.isEmpty
  | .vdict f => !f.isEmpty

/-- Python dict lookup `d.get(k)` as an association-list lookup. -/
def dictGet (fields : List (String × PyVal)) (k : String) : Option PyVal :=
  (fields.find? (fun p => p.1 == k)).map (fun p => p.2)

/-- The information content of the message strings returned by
`validate_translation_structure` ("Response is not a dictionary",
"Translation marked as unsuccessful", "Missing segments: {...}" carrying
the missing index set, "Segment {num} should be text string, ...", and
"Validation passed"). -/
inductive ValidationMsg where
  | notADict
  | unsuccessful
  | missingSegments (missing : List String)
  | wrongType (num : String)
  | passed
deriving Repr, DecidableEq

/-- The missing-index computation of `validate_translation_structure`
(src/main.py:1078-1084 and src/transcribe_api.py:253-259):
`expected_nums = set(original_segments.keys())`, `actual_nums` the
response keys without the `success`/`comment` sentinels, and the result
`expected_nums - actual_nums`.  Sets of string keys are modelled as
deduplicated lists in first-occurrence order (CPython set iteration
order is unspecified). -/
def missingIndices (original_segments fields : List (String × PyVal)) :
    List String :=
  ((original_segments.map Prod.fst).dedup).filter
    (fun k => !((((fields.map Prod.fst).filter
      (fun k2 => k2 != "success" && k2 != "comment")).dedup).contains k))

/-- Embeds `validate_translation_structure(original_segments,
translated_data)` (src/main.py:1070-1092, src/transcribe_api.py:245-267):
fail if the response is not a dict; fail if its `success` entry is falsy
or absent (`.get` yields None); fail naming the missing indices if some
original key is not among the response's non-sentinel keys; fail naming
the first original key whose response value is present but not a string;
otherwise pass.  The Python `if not ...: return` ladder is embedded as
the equivalent positive conditionals. -/
def validate_translation_structure (original_segments : List (String × PyVal))
    (translated_data : PyVal) : Bool × ValidationMsg :=
  match translated_data with
  | .vdict fields =>
    if pyTruthy ((dictGet fields "success").getD PyVal.vnull) then
      if missingIndices original_segments fields ≠ [] then
        (false, ValidationMsg.missingSegments
          (missingIndices original_segments fields))
      else
        match ((original_segments.map Prod.fst).dedup).find?
            (fun num =>
              match dictGet fields num with
              | some (PyVal.vstr _) => false
              | some _ => true
              | none => false) with
        | some num => (false, ValidationMsg.wrongType num)
        | none => (true, ValidationMsg.passed)
    else (false, ValidationMsg.unsuccessful)
  | _ => (false, ValidationMsg.notADict)

/-- C6: `validate_translation_structure` fails exactly when the response
is not a dict, or its `success` entry is falsy/absent, or some original
index is missing from the response's non-sentinel keys, or some original
index maps to a non-string value; and whenever indices are missing (with
a truthy dict response) the returned message carries exactly the missing
indices. -/
theorem validate_translation_structure_spec
    (orig : List (String × PyVal)) (resp : PyVal) :
    ((validate_translation_structure orig resp).1 = false ↔
      (∀ fields, resp ≠ PyVal.vdict fields) ∨
      ∃ fields, resp = PyVal.vdict fields ∧
        (pyTruthy ((dictGet fields "success").getD PyVal.vnull) = false ∨
         missingIndices orig fields ≠ [] ∨
         ∃ k ∈ orig.map Prod.fst, ∃ v, dictGet fields k = some v ∧
           ∀ t, v ≠ PyVal.vstr t)) ∧
    (∀ fields, resp = PyVal.vdict fields →
      pyTruthy ((dictGet fields "success").getD PyVal.vnull) = true →
      missingIndices orig fields ≠ [] →
      validate_translation_structure orig resp =
        (false, ValidationMsg.missingSegments (missingIndices orig fields))) := by
  cases resp with
  | vdict fields =>
    constructor
    · by_cases ht : pyTruthy ((dictGet fields "success").getD PyVal.vnull)
      · by_cases hm : missingIndices orig fields = []
        · cases hfind : ((orig.map Prod.fst).dedup).find?
              (fun num =>
                match dictGet fields num with
                | some (PyVal.vstr _) => false
                | some _ => true
                | none => false) with
          | some num =>
            have h1 : (validate_translation_structure orig (PyVal.vdict fields)).1 =
                false := by
              simp only [validate_translation_structure, if_pos ht, if_neg
                (not_not_intro hm), hfind]
            rw [h1]
            simp only [true_iff]
            refine Or.inr ⟨fields, rfl, Or.inr (Or.inr ?_)⟩
            have hmem := List.mem_of_find?_eq_some hfind
            have hpred := List.find?_some hfind
            refine ⟨num, List.mem_dedup.mp hmem, ?_⟩
            cases hget : dictGet fields num with
            | none => rw [hget] at hpred; simp at hpred
            | some v =>
              refine ⟨v, rfl, ?_⟩
              intro t hv
              subst hv
              rw [hget] at hpred
              simp at hpred
          | none =>
            have h1 : (validate_translation_structure orig (PyVal.vdict fields)).1 =
                true := by
              simp only [validate_translation_structure, if_pos ht, if_neg
                (not_not_intro hm), hfind]
            rw [h1]
            simp only [Bool.true_eq_false, false_iff]
            rintro (hnd | ⟨fields2, heq, hbad⟩)
            · exact hnd fields rfl
            · cases heq
              rcases hbad with hb | hb | ⟨k, hk, v, hget, hnstr⟩
              · rw [ht] at hb; exact absurd hb (by simp)
              · exact hb hm
              · have hk' : k ∈ (orig.map Prod.fst).dedup := List.mem_dedup.mpr hk
                have := List.find?_eq_none.mp hfind k hk'
                rw [hget] at this
                cases v with
                | vstr t => exact hnstr t rfl
                | vint n => simp at this
                | vbool b => simp at this
                | vnull => simp at this
                | vlist l => simp at this
                | vdict f => simp at this
        · have h1 : (validate_translation_structure orig (PyVal.vdict fields)).1 =
              false := by
            simp only [validate_translation_structure, if_pos ht, if_pos hm]
          rw [h1]
          simp only [true_iff]
          exact Or.inr ⟨fields, rfl, Or.inr (Or.inl hm)⟩
      · have h1 : (validate_translation_structure orig (PyVal.vdict fields)).1 =
            false := by
          simp only [validate_translation_structure, if_neg ht]
        rw [h1]
        simp only [true_iff]
        exact Or.inr ⟨fields, rfl, Or.inl (by simpa using ht)⟩
    · intro fields2 heq ht hm
      cases heq
      simp only [validate_translation_structure, if_pos ht, if_pos hm]
  | vstr s =>
    refine ⟨?_, ?_⟩
    · simp only [validate_translation_structure]
      simp only [true_iff]
      exact Or.inl (fun fields h => by cases h)
    · intro fields heq; cases heq
  | vint n =>
    refine ⟨?_, ?_⟩
    · simp only [validate_translation_structure]
      simp only [true_iff]
      exact Or.inl (fun fields h => by cases h)
    · intro fields heq; cases heq
  | vbool b =>
    refine ⟨?_, ?_⟩
    · simp only [validate_translation_structure]
      simp only [true_iff]
      exact Or.inl (fun fields h => by cases h)
    · intro fields heq; cases heq
  | vnull =>
    refine ⟨?_, ?_⟩
    · simp only [validate_translation_structure]
      simp only [true_iff]
      exact Or.inl (fun fields h => by cases h)
    · intro fields heq; cases heq
  | vlist l =>
    refine ⟨?_, ?_⟩
    · simp only [validate_translation_structure]
      simp only [true_iff]
      exact Or.inl (fun fields h => by cases h)
    · intro fields heq; cases heq

/-- Scenario D response fields: `success: True` and only segment "1". -/
def scenarioDFields : List (String × PyVal) :=
  [("success", PyVal.vbool true), ("1", PyVal.vstr ['x'])]

/-- Scenario D original segments: indices "1" and "2". -/
def scenarioDOriginal : List (String × PyVal) :=
  [("1", PyVal.vstr ['a']), ("2", PyVal.vstr ['b'])]

/-- Witness for C6 (Scenario D): with original indices "1","2" and a
response missing "2", the validator fails and names exactly "2". -/
theorem validate_translation_structure_witness :
    validate_translation_structure scenarioDOriginal
      (PyVal.vdict scenarioDFields) =
      (false, ValidationMsg.missingSegments ["2"]) := by
  have h := (validate_translation_structure_spec scenarioDOriginal
    (PyVal.vdict scenarioDFields)).2 scenarioDFields rfl (by decide) (by decide)
  rw [h]
  decide

/-- The word-redistribution loop of `redistribute_original_text`
(src/main.py:717-743), abstracted over the word type (only the word
sequence matters; segment numbers and timestamps are carried through
unchanged).  The loop runs once per processed segment (fuel `k`, segment
index `i`, word cursor `wi`):
`expected_words_end = int((i+1) * (len(words)/total_segments))` (IEEE
float truncation embedded as exact floor division, exact whenever the
double computation is), the segment takes `words[wi:expected_words_end]`
(the source's re-slicing when the end exceeds the word count equals the
clamping slice), an empty slice falls back to a single word when any
remain (advancing the cursor by one) and is dropped otherwise, and a
non-empty slice advances the cursor to `expected_words_end`.  Returns
the per-segment word lists and the final cursor. -/
def redistribute_text_loop {α : Type} (ws : List α) (n : Nat) :
    Nat → Nat → Nat → (List (List α) × Nat)
  | 0, _, wi => ([], wi)
  | Nat.succ k, i, wi =>
    let expected_words_end := ((i + 1) * ws.length) / n
    let segment_words := (ws.drop wi).take (expected_words_end - wi)
    if segment_words.isEmpty then
      if wi < ws.length then
        let r := redistribute_text_loop ws n k (i + 1) (wi + 1)
        ((ws.drop wi).take 1 :: r.1, r.2)
      else redistribute_text_loop ws n k (i + 1) wi
    else
      let r := redistribute_text_loop ws n k (i + 1) expected_words_end
      (segment_words :: r.1, r.2)

/-- The leftover handling of `redistribute_original_text`
(src/main.py:745-757): remaining words are appended to the last
segment's words, or become a segment of their own when none exist. -/
def appendToLast {α : Type} (extra : List α) : List (List α) → List (List α)
  | [] => [extra]
  | [x] => [x ++ extra]
  | x :: y :: rest => x :: appendToLast extra (y :: rest)

/-- Embeds the word-distribution core of
`redistribute_original_text(original_srt_content, processed_srt_content)`
(src/main.py:665-771), with the original transcript's word queue `ws`
and the processed transcript's segment count `n`: with no words or no
segments the processed content is returned unredistributed (modelled as
no output), otherwise the loop distributes the words and any words left
at the final cursor are appended to the last segment. -/
def redistribute_original_text_words {α : Type} (ws : List α) (n : Nat) :
    List (List α) :=
  if ws.isEmpty ∨ n = 0 then []
  else
    let r := redistribute_text_loop ws n n 0 0
    if r.2 < ws.length then appendToLast (ws.drop r.2) r.1 else r.1

/-- Python's round(): round half to even (banker's rounding). -/
def pythonRound (q : ℚ) : Int :=
  let f := ⌊q⌋
  let r := q - (f : ℚ)
  if r < 1/2 then f
  else if 1/2 < r then f + 1
  else if Even f then f else f + 1

/-- The slice of the word queue that segment `i` receives in exact
arithmetic: from floor(i*W/n) to floor((i+1)*W/n). -/
def floorSlice {α : Type} (ws : List α) (n i : Nat) : List α :=
  (ws.drop ((i * ws.length) / n)).take
    (((i + 1) * ws.length) / n - (i * ws.length) / n)

/-- Counterexample to C4 as stated: with W = 3 original words and n = 2
segments, the code gives segment 0 exactly
`int((0+1) * 1.5) = 1` word, while the claim's formula
`round((0+1)*W/n) - round(0*W/n)` gives 2 (Python rounds 1.5 to 2):
`int()` truncates, it does not round. -/
theorem redistribute_original_text_round_cex :
    (redistribute_original_text_words ([0, 1, 2] : List Nat) 2).map
      List.length = [1, 2] ∧
    pythonRound ((0 + 1 : ℚ) * (3 / 2)) - pythonRound ((0 : ℚ) * (3 / 2)) = 2 := by
  constructor
  · decide
  · norm_num [pythonRound]

lemma floor_bound_succ {W n : Nat} (hn : 0 < n) (hW : n ≤ W) (i : Nat) :
    (i * W) / n + 1 ≤ ((i + 1) * W) / n := by
  have h1 : (i * W + n) / n = (i * W) / n + 1 := Nat.add_div_right _ hn
  have h2 : i * W + n ≤ (i + 1) * W := by
    have : (i + 1) * W = i * W + W := by ring
    omega
  calc (i * W) / n + 1 = (i * W + n) / n := h1.symm
    _ ≤ ((i + 1) * W) / n := Nat.div_le_div_right h2

lemma floor_bound_top {W n : Nat} (hn : 0 < n) (i : Nat) (hi : i ≤ n) :
    (i * W) / n ≤ W := by
  calc (i * W) / n ≤ (n * W) / n := Nat.div_le_div_right
        (Nat.mul_le_mul_right W hi)
    _ = W := Nat.mul_div_cancel_left W hn

lemma redistribute_text_loop_eq {α : Type} (ws : List α) (n : Nat)
    (hn : 0 < n) (hW : n ≤ ws.length) :
    ∀ (k i : Nat), i + k = n →
      redistribute_text_loop ws n k i ((i * ws.length) / n) =
        ((List.range k).map (fun j => floorSlice ws n (i + j)),
          (n * ws.length) / n) := by
  intro k
  induction k with
  | zero =>
    intro i hi
    have : i = n := by omega
    subst this
    simp [redistribute_text_loop]
  | succ k ih =>
    intro i hi
    have hin : i < n := by omega
    have he1 : (i * ws.length) / n + 1 ≤ ((i + 1) * ws.length) / n :=
      floor_bound_succ hn hW i
    have he2 : ((i + 1) * ws.length) / n ≤ ws.length :=
      floor_bound_top hn (i + 1) (by omega)
    have hlt : (i * ws.length) / n < ws.length := by omega
    have hne : ((ws.drop ((i * ws.length) / n)).take
        (((i + 1) * ws.length) / n - (i * ws.length) / n)).isEmpty = false := by
      rw [Bool.eq_false_iff]
      intro hE
      rw [List.isEmpty_iff_length_eq_zero] at hE
      rw [List.length_take, List.length_drop] at hE
      omega
    simp only [redistribute_text_loop]
    rw [hne]
    simp only [Bool.false_eq_true, if_false]
    rw [ih (i + 1) (by omega), List.range_succ_eq_map]
    simp only [List.map_cons, List.map_map, Prod.mk.injEq, and_true]
    congr 1
    apply List.map_congr_left
    intro j _
    simp only [Function.comp_apply]
    congr 1
    omega

/-- C4 (amended): `redistribute_original_text` distributes by truncation,
not rounding.  For W >= n > 0 (at least one word per segment on
average), segment i receives exactly the words from position
floor(i*W/n) to floor((i+1)*W/n) of the original queue — that is,
exactly `int((i+1)*W/n) - int(i*W/n)` consecutive words from the front
— the result has exactly n segments, and concatenating them restores
the whole word queue (the rounding-remainder append to the final
segment is a no-op in exact arithmetic). -/
theorem redistribute_original_text_floor {α : Type} (ws : List α) (n : Nat)
    (hn : 0 < n) (hW : n ≤ ws.length) :
    redistribute_original_text_words ws n =
      (List.range n).map (floorSlice ws n) ∧
    (redistribute_original_text_words ws n).map List.length =
      (List.range n).map
        (fun i => ((i + 1) * ws.length) / n - (i * ws.length) / n) ∧
    (redistribute_original_text_words ws n).flatten = ws := by
  have hW0 : ws.length ≠ 0 := by omega
  have hloop := redistribute_text_loop_eq ws n hn hW n 0 (by omega)
  simp only [Nat.zero_mul, Nat.zero_div, Nat.zero_add] at hloop
  have hmain : redistribute_original_text_words ws n =
      (List.range n).map (floorSlice ws n) := by
    unfold redistribute_original_text_words
    rw [if_neg (by
      rintro (h | h)
      · rw [List.isEmpty_iff_length_eq_zero] at h; exact hW0 h
      · omega)]
    rw [hloop]
    simp only [Nat.mul_div_cancel_left _ hn]
    rw [if_neg (by omega)]
  refine ⟨hmain, ?_, ?_⟩
  · rw [hmain, List.map_map]
    apply List.map_congr_left
    intro i hi
    rw [List.mem_range] at hi
    simp only [Function.comp_apply, floorSlice]
    rw [List.length_take, List.length_drop]
    have he2 : ((i + 1) * ws.length) / n ≤ ws.length :=
      floor_bound_top hn (i + 1) (by omega)
    have he1 : (i * ws.length) / n + 1 ≤ ((i + 1) * ws.length) / n :=
      floor_bound_succ hn hW i
    omega
  · rw [hmain]
    have key : ∀ (k i : Nat), i + k = n →
        (((List.range k).map (fun j => floorSlice ws n (i + j))).flatten) =
          (ws.drop ((i * ws.length) / n)).take
            (ws.length - (i * ws.length) / n) := by
      intro k
      induction k with
      | zero =>
        intro i hi
        have : i = n := by omega
        subst this
        rw [Nat.mul_div_cancel_left _ hn]
        simp
      | succ k ih =>
        intro i hi
        rw [List.range_succ_eq_map]
        simp only [List.map_cons, List.map_map, List.flatten_cons]
        have hrw : (List.range k).map ((fun j => floorSlice ws n (i + j)) ∘
            Nat.succ) = (List.range k).map (fun j => floorSlice ws n (i + 1 + j)) := by
          apply List.map_congr_left
          intro j _
          simp only [Function.comp_apply]
          congr 1
          omega
        rw [hrw, ih (i + 1) (by omega)]
        have he1 : (i * ws.length) / n + 1 ≤ ((i + 1) * ws.length) / n :=
          floor_bound_succ hn hW i
        have he2 : ((i + 1) * ws.length) / n ≤ ws.length :=
          floor_bound_top hn (i + 1) (by omega)
        have hd : ws.drop (((i + 1) * ws.length) / n) =
            (ws.drop ((i * ws.length) / n)).drop
              (((i + 1) * ws.length) / n - (i * ws.length) / n) := by
          rw [List.drop_drop]
          congr 1
          omega
        have hadd : ws.length - (i * ws.length) / n =
            (((i + 1) * ws.length) / n - (i * ws.length) / n) +
              (ws.length - ((i + 1) * ws.length) / n) := by omega
        rw [hd, floorSlice]
        rw [show (i + 0) = i from rfl]
        rw [hadd, List.take_add]
    have h0 := key n 0 (by omega)
    simp only [Nat.zero_add, Nat.zero_mul, Nat.zero_div, List.drop_zero,
      Nat.sub_zero] at h0
    rw [h0]
    exact List.take_length ws

/-- Witness for C4's amended theorem: seven words across three segments
give slices of 2, 2 and 3 words covering the whole queue. -/
theorem redistribute_original_text_floor_witness :
    redistribute_original_text_words ([0, 1, 2, 3, 4, 5, 6] : List Nat) 3 =
      (List.range 3).map (floorSlice ([0, 1, 2, 3, 4, 5, 6] : List Nat) 3) ∧
    (redistribute_original_text_words ([0, 1, 2, 3, 4, 5, 6] : List Nat) 3).map
      List.length = (List.range 3).map
        (fun i => ((i + 1) * ([0, 1, 2, 3, 4, 5, 6] : List Nat).length) / 3 -
          (i * ([0, 1, 2, 3, 4, 5, 6] : List Nat).length) / 3) ∧
    (redistribute_original_text_words ([0, 1, 2, 3, 4, 5, 6] : List Nat) 3).flatten =
      [0, 1, 2, 3, 4, 5, 6] :=
  redistribute_original_text_floor [0, 1, 2, 3, 4, 5, 6] 3 (by decide) (by decide)

/-- Python sep.join(parts) for list-of-chars parts. -/
def joinSep (sep : List Char) : List (List Char) → List Char
  | [] => []
  | [x] => x
  | x :: y :: rest => x ++ sep ++ joinSep sep (y :: rest)

/-- Fuel-indexed embedding of Python str.split(sep) for a non-empty
multi-character separator: scan left to right, split at each leftmost
non-overlapping occurrence, keep empty fields.  The fuel starts at the
string length, which bounds the number of steps. -/
def splitSeqAux (sep : List Char) : Nat → List Char → List (List Char)
  | _, [] => [[]]
  | 0, s => [s]
  | fuel+1, c :: rest =>
    if sep.isPrefixOf (c :: rest) && !sep.isEmpty then
      [] :: splitSeqAux sep fuel ((c :: rest).drop sep.length)
    else
      match splitSeqAux sep fuel rest with
      | x :: xs => (c :: x) :: xs
      | [] => [[c]]

/-- Multi-character split at full fuel. -/
def splitSeq (sep : List Char) (s : List Char) : List (List Char) :=
  splitSeqAux sep s.length s

/-- The decimal digit character for a value below ten. -/
def digitChar : Nat → Char
  | 0 => '0' | 1 => '1' | 2 => '2' | 3 => '3' | 4 => '4'
  | 5 => '5' | 6 => '6' | 7 => '7' | 8 => '8' | 9 => '9'
  | _ => '*'

/-- Decimal digit characters of a natural number, most significant
first (the digits Python's str() produces for a non-negative int). -/
def natToDigits (n : Nat) : List Char :=
  if h : n < 10 then [digitChar n]
  else
    have : n / 10 < n := Nat.div_lt_self (by omega) (by norm_num)
    natToDigits (n / 10) ++ [digitChar (n % 10)]

/-- Embeds Python str(int): an optional minus sign followed by the
decimal digits. -/
def intToString (z : Int) : List Char :=
  if z < 0 then '-' :: natToDigits z.natAbs else natToDigits z.toNat

/-- Zero padding to width 2, as produced by a formatted 02d field. -/
def pad2 (l : List Char) : List Char :=
  if l.length < 2 then List.replicate (2 - l.length) '0' ++ l else l

/-- Zero padding to width 3, as produced by a formatted 03d field. -/
def pad3 (l : List Char) : List Char :=
  if l.length < 3 then List.replicate (3 - l.length) '0' ++ l else l

/-- Embeds `format_timestamp(total_ms)` of
src/timing_redistributor.py:51-60: clamp below at 0, then render
`HH:MM:SS,mmm` with zero-padded fields (hours wider than two digits are
rendered in full, as Python's 02d format does). -/
def format_timestamp_tr (total_ms : Int) : List Char :=
  let t := (max 0 total_ms).toNat
  let hours := t / (1000 * 60 * 60)
  let minutes := (t % (1000 * 60 * 60)) / (1000 * 60)
  let seconds := (t % (1000 * 60)) / 1000
  let milliseconds := t % 1000
  pad2 (natToDigits hours) ++ ':' :: pad2 (natToDigits minutes) ++
    ':' :: pad2 (natToDigits seconds) ++ ',' :: pad3 (natToDigits milliseconds)

/-- The arrow separator of a timestamp line. -/
def arrowSep : List Char := ' ' :: '-' :: '-' :: '>' :: ' ' :: []

/-- Embeds the per-block parsing of `parse_srt_content`
(src/timing_redistributor.py:68-88): skip whitespace-only blocks; strip
the block and split into lines; with fewer than 3 lines skip; parse the
first line as the number (int() failure skips the block), take the
second line as the timestamp line, join the remaining lines as the
text; split the timestamp line on the arrow into exactly two parts
(otherwise skip) and parse each with `parse_timestamp`. -/
def parse_block (block : List Char) : Option SubtitleSegment :=
  let stripped := pyStrip block
  if stripped.isEmpty then none
  else
    let lines := splitOnChar '\n' stripped
    if 3 ≤ lines.length then
      match pythonInt (pyStrip (lines.headD [])) with
      | none => none
      | some number =>
        let timestamp_line := pyStrip (lines.getD 1 [])
        let text := pyStrip (joinSep ['\n'] (lines.drop 2))
        match splitSeq arrowSep timestamp_line with
        | [start_str, end_str] =>
          some ⟨number, parse_timestamp_tr (pyStrip start_str),
            parse_timestamp_tr (pyStrip end_str), text⟩
        | _ => none
    else none

/-- Embeds `parse_srt_content(srt_content)`
(src/timing_redistributor.py:63-90): strip the content, split into
blocks on blank lines, and parse each block, skipping malformed ones. -/
def parse_srt_content (srt_content : List Char) : List SubtitleSegment :=
  (splitSeq ['\n', '\n'] (pyStrip srt_content)).filterMap parse_block

/-- The four lines a segment contributes to the output
(src/timing_redistributor.py:227-231): number, formatted timestamp
range, text, and an empty separator line. -/
def serialize_segment (s : SubtitleSegment) : List (List Char) :=
  [intToString s.number,
   format_timestamp_tr s.start_ms ++ arrowSep ++ format_timestamp_tr s.end_ms,
   s.text,
   []]

/-- Embeds the serializer of `redistribute_srt_timing`
(src/timing_redistributor.py:226-233): join all lines with newlines and
strip the result. -/
def serialize_srt (segments : List SubtitleSegment) : List Char :=
  pyStrip (joinSep ['\n'] ((segments.map serialize_segment).flatten))

lemma getLast?_mem_of_eq {α : Type} : ∀ (l : List α) (x : α), l.getLast? = some x → x ∈ l
  | [], x, h => by simp at h
  | [a], x, h => by simp at h; simp [h]
  | a :: b :: rest, x, h => by
    rw [List.getLast?_cons_cons] at h
    exact List.mem_cons_of_mem a (getLast?_mem_of_eq (b :: rest) x h)

lemma dropWhile_head_not (p : Char → Bool) :
    ∀ (l : List Char) (x : Char), (l.dropWhile p).head? = some x → p x = false
  | [], x, h => by simp at h
  | c :: rest, x, h => by
    by_cases hc : p c
    · rw [List.dropWhile_cons, if_pos hc] at h
      exact dropWhile_head_not p rest x h
    · rw [List.dropWhile_cons, if_neg hc] at h
      simp at h
      rw [← h]
      simpa using hc

lemma mem_dropWhile_of_neg (p : Char → Bool) :
    ∀ (l : List Char) (x : Char), x ∈ l → p x = false → x ∈ l.dropWhile p
  | [], x, hx, _ => by simp at hx
  | c :: rest, x, hx, hpx => by
    by_cases hc : p c
    · rw [List.dropWhile_cons, if_pos hc]
      rcases List.mem_cons.mp hx with rfl | hx'
      · rw [hpx] at hc; simp at hc
      · exact mem_dropWhile_of_neg p rest x hx' hpx
    · rw [List.dropWhile_cons, if_neg hc]
      exact hx

lemma dropWhile_eq_self_of_head (p : Char → Bool) (l : List Char)
    (h : ∀ x, l.head? = some x → p x = false) : l.dropWhile p = l := by
  cases l with
  | nil => rfl
  | cons c rest =>
    rw [List.dropWhile_cons, if_neg]
    rw [h c rfl]
    simp

lemma pyStrip_getLast_not_space (l : List Char) (x : Char)
    (h : (pyStrip l).getLast? = some x) : isPySpace x = false := by
  unfold pyStrip at h
  rw [List.getLast?_reverse] at h
  exact dropWhile_head_not isPySpace _ x h

lemma pyStrip_head_not_space (l : List Char) (x : Char)
    (h : (pyStrip l).head? = some x) : isPySpace x = false := by
  unfold pyStrip at h
  rw [List.head?_reverse] at h
  obtain ⟨t, ht⟩ := List.dropWhile_suffix (l := (l.dropWhile isPySpace).reverse)
    (p := isPySpace)
  set Y := ((l.dropWhile isPySpace).reverse).dropWhile isPySpace with hY
  cases hy : Y with
  | nil => rw [hy] at h; simp at h
  | cons a as =>
    have hYne : Y ≠ [] := by rw [hy]; simp
    have h2 : ((l.dropWhile isPySpace).reverse).getLast? = some x := by
      rw [← ht, List.getLast?_append]
      rw [h]
      rfl
    rw [List.getLast?_reverse] at h2
    exact dropWhile_head_not isPySpace _ x h2

lemma pyStrip_eq_self (l : List Char)
    (hhead : ∀ x, l.head? = some x → isPySpace x = false)
    (hlast : ∀ x, l.getLast? = some x → isPySpace x = false) :
    pyStrip l = l := by
  unfold pyStrip
  rw [dropWhile_eq_self_of_head _ _ hhead]
  rw [dropWhile_eq_self_of_head _ _ (by
    intro x hx
    rw [List.head?_reverse] at hx
    exact hlast x hx)]
  exact List.reverse_reverse l

lemma pyStrip_idem (l : List Char) : pyStrip (pyStrip l) = pyStrip l :=
  pyStrip_eq_self _ (pyStrip_head_not_space l) (pyStrip_getLast_not_space l)

lemma pyStrip_ne_nil_of_mem (l : List Char) (x : Char) (hx : x ∈ l)
    (hxs : isPySpace x = false) : pyStrip l ≠ [] := by
  unfold pyStrip
  intro h
  have h1 : x ∈ l.dropWhile isPySpace := mem_dropWhile_of_neg _ _ _ hx hxs
  have h2 : x ∈ (l.dropWhile isPySpace).reverse := by simpa using h1
  have h3 : x ∈ ((l.dropWhile isPySpace).reverse).dropWhile isPySpace :=
    mem_dropWhile_of_neg _ _ _ h2 hxs
  rw [List.reverse_eq_nil_iff] at h
  rw [h] at h3
  simp at h3

lemma pyStrip_infix (l : List Char) : ∃ A B, l = A ++ pyStrip l ++ B := by
  obtain ⟨A, hA⟩ := List.dropWhile_suffix (l := l) (p := isPySpace)
  obtain ⟨t, ht⟩ := List.dropWhile_suffix (l := (l.dropWhile isPySpace).reverse)
    (p := isPySpace)
  refine ⟨A, t.reverse, ?_⟩
  have h1 : l.dropWhile isPySpace = pyStrip l ++ t.reverse := by
    have h2 := congrArg List.reverse ht
    rw [List.reverse_append, List.reverse_reverse] at h2
    unfold pyStrip
    exact h2.symm
  rw [List.append_assoc, ← h1, hA]

lemma pyStrip_append_newline (J : List Char) (hne : J ≠ [])
    (hhead : ∀ x, J.head? = some x → isPySpace x = false)
    (hlast : ∀ x, J.getLast? = some x → isPySpace x = false) :
    pyStrip (J ++ ['\n']) = J := by
  obtain ⟨c, rest, rfl⟩ : ∃ c rest, J = c :: rest := by
    cases J with
    | nil => exact absurd rfl hne
    | cons c rest => exact ⟨c, rest, rfl⟩
  unfold pyStrip
  have h1 : List.dropWhile isPySpace (c :: rest ++ ['\n']) =
      c :: rest ++ ['\n'] := by
    rw [List.cons_append, List.dropWhile_cons, if_neg]
    rw [hhead c rfl]
    simp
  rw [List.cons_append] at h1
  rw [List.cons_append, h1, ← List.cons_append, List.reverse_append]
  simp only [List.reverse_cons, List.reverse_nil, List.nil_append,
    List.singleton_append]
  rw [List.dropWhile_cons, if_pos (by simp [isPySpace])]
  rw [dropWhile_eq_self_of_head _ _ (by
    intro x hx
    rw [← List.reverse_cons, List.head?_reverse] at hx
    exact hlast x hx)]
  rw [← List.reverse_cons, List.reverse_reverse]

/-- Scanner for two adjacent newline characters. -/
def hasNLNL : List Char → Bool
  | c :: d :: rest => (c == '\n' && d == '\n') || hasNLNL (d :: rest)
  | _ => false

lemma hasNLNL_tail : ∀ (a : Char) (L : List Char),
    hasNLNL (a :: L) = false → hasNLNL L = false
  | _, [], _ => rfl
  | a, b :: L', h => by
    rw [hasNLNL] at h
    exact (Bool.or_eq_false_iff.mp h).2

lemma hasNLNL_append_right : ∀ (A B : List Char),
    hasNLNL (A ++ B) = false → hasNLNL B = false
  | [], _, h => h
  | a :: A', B, h => by
    rw [List.cons_append] at h
    exact hasNLNL_append_right A' B (hasNLNL_tail a _ h)

lemma hasNLNL_append_left : ∀ (A B : List Char),
    hasNLNL (A ++ B) = false → hasNLNL A = false
  | [], _, _ => rfl
  | [a], _, _ => rfl
  | a :: a' :: A'', B, h => by
    rw [List.cons_append, List.cons_append, hasNLNL] at h
    obtain ⟨h1, h2⟩ := Bool.or_eq_false_iff.mp h
    rw [hasNLNL, Bool.or_eq_false_iff]
    refine ⟨h1, ?_⟩
    rw [← List.cons_append] at h2
    exact hasNLNL_append_left (a' :: A'') B h2

lemma hasNLNL_append (A B : List Char) (hA : hasNLNL A = false)
    (hB : hasNLNL B = false)
    (hbound : ¬ (A.getLast? = some '\n' ∧ B.head? = some '\n')) :
    hasNLNL (A ++ B) = false := by
  induction A with
  | nil => simpa using hB
  | cons a A' ih =>
    cases A' with
    | nil =>
      simp only [List.singleton_append]
      cases B with
      | nil => rfl
      | cons b B' =>
        rw [hasNLNL, Bool.or_eq_false_iff]
        refine ⟨?_, hB⟩
        rw [Bool.and_eq_false_iff]
        by_cases ha : a = '\n'
        · right
          rw [beq_eq_false_iff_ne]
          intro hb
          exact hbound ⟨by simp [ha], by simp [hb]⟩
        · left
          rw [beq_eq_false_iff_ne]
          exact ha
    | cons a'' A'' =>
      rw [List.cons_append, List.cons_append, hasNLNL, Bool.or_eq_false_iff]
      rw [hasNLNL] at hA
      obtain ⟨h1, h2⟩ := Bool.or_eq_false_iff.mp hA
      refine ⟨h1, ?_⟩
      rw [← List.cons_append]
      refine ih h2 ?_
      intro ⟨hx, hy⟩
      refine hbound ⟨?_, hy⟩
      rw [List.getLast?_cons_cons]
      exact hx

lemma hasNLNL_of_no_nl : ∀ (A : List Char), (∀ c ∈ A, c ≠ '\n') →
    hasNLNL A = false
  | [], _ => rfl
  | [_], _ => rfl
  | a :: a' :: A'', h => by
    rw [hasNLNL, Bool.or_eq_false_iff]
    constructor
    · rw [Bool.and_eq_false_iff]
      left
      rw [beq_eq_false_iff_ne]
      exact h a (by simp)
    · exact hasNLNL_of_no_nl (a' :: A'') (fun c hc => h c (List.mem_cons_of_mem a hc))

lemma hasNLNL_pyStrip (l : List Char) (h : hasNLNL l = false) :
    hasNLNL (pyStrip l) = false := by
  obtain ⟨A, B, hAB⟩ := pyStrip_infix l
  rw [hAB] at h
  rw [List.append_assoc] at h
  exact hasNLNL_append_left _ _ (hasNLNL_append_right A _ h)

lemma splitSeqAux_ne_nil (sep : List Char) :
    ∀ (fuel : Nat) (l : List Char), splitSeqAux sep fuel l ≠ [] := by
  intro fuel
  induction fuel with
  | zero => intro l; cases l <;> simp [splitSeqAux]
  | succ f ih =>
    intro l
    cases l with
    | nil => simp [splitSeqAux]
    | cons c rest =>
      simp only [splitSeqAux]
      by_cases h : (sep.isPrefixOf (c :: rest) && !sep.isEmpty) = true
      · rw [if_pos h]; simp
      · rw [if_neg h]
        cases hr : splitSeqAux sep f rest <;> simp [hr]

lemma splitSeqAux_cons_nomatch (sep : List Char) (fuel : Nat) (c : Char)
    (rest : List Char) (h : sep.isPrefixOf (c :: rest) = false) :
    ∃ x xs, splitSeqAux sep fuel rest = x :: xs ∧
      splitSeqAux sep (fuel + 1) (c :: rest) = (c :: x) :: xs := by
  cases hr : splitSeqAux sep fuel rest with
  | nil => exact absurd hr (splitSeqAux_ne_nil sep fuel rest)
  | cons x xs =>
    refine ⟨x, xs, rfl, ?_⟩
    simp only [splitSeqAux, h, Bool.false_and, Bool.false_eq_true, if_false, hr]

lemma splitSeqAux_cons_match (sep : List Char) (fuel : Nat) (s : List Char)
    (hsep : sep.isEmpty = false) (h : sep.isPrefixOf s = true) (hs : s ≠ []) :
    splitSeqAux sep (fuel + 1) s = [] :: splitSeqAux sep fuel (s.drop sep.length) := by
  cases s with
  | nil => exact absurd rfl hs
  | cons c rest =>
    simp only [splitSeqAux, h, hsep, Bool.not_false, Bool.and_self, if_true]

lemma splitSeqAux_fuel (sep : List Char) :
    ∀ (f1 f2 : Nat) (l : List Char), l.length ≤ f1 → l.length ≤ f2 →
      splitSeqAux sep f1 l = splitSeqAux sep f2 l := by
  intro f1
  induction f1 with
  | zero =>
    intro f2 l h1 _
    have : l = [] := by
      cases l with
      | nil => rfl
      | cons c r => simp at h1
    subst this
    cases f2 <;> simp [splitSeqAux]
  | succ f1' ih =>
    intro f2 l h1 h2
    cases l with
    | nil => cases f2 <;> simp [splitSeqAux]
    | cons c rest =>
      cases f2 with
      | zero => simp at h2
      | succ f2' =>
        by_cases hm : sep.isPrefixOf (c :: rest) = true
        · by_cases hsep : sep.isEmpty = true
          · have : sep = [] := by
              cases sep with
              | nil => rfl
              | cons a as => simp at hsep
            subst this
            simp only [splitSeqAux, hm]
            simp only [List.isEmpty_nil, Bool.not_true, Bool.and_false,
              Bool.false_eq_true, if_false, List.tail_cons]
            have := ih f2' rest (by simpa using h1) (by simpa using h2)
            rw [this]
          · have hsep' : sep.isEmpty = false := by
              cases hv : sep.isEmpty
              · rfl
              · exact absurd hv hsep
            rw [splitSeqAux_cons_match sep f1' (c :: rest) hsep' hm (by simp),
              splitSeqAux_cons_match sep f2' (c :: rest) hsep' hm (by simp)]
            have hlen : ((c :: rest).drop sep.length).length ≤ f1' ∧
                ((c :: rest).drop sep.length).length ≤ f2' := by
              rw [List.length_drop]
              have hsl : 1 ≤ sep.length := by
                cases sep with
                | nil => simp at hsep
                | cons a as => simp
              simp only [List.length_cons] at h1 h2 ⊢
              omega
            rw [ih f2' _ hlen.1 hlen.2]
        · have hm' : sep.isPrefixOf (c :: rest) = false := by
            cases hv : sep.isPrefixOf (c :: rest)
            · rfl
            · exact absurd hv hm
          obtain ⟨x1, xs1, hr1, he1⟩ := splitSeqAux_cons_nomatch sep f1' c rest hm'
          obtain ⟨x2, xs2, hr2, he2⟩ := splitSeqAux_cons_nomatch sep f2' c rest hm'
          rw [he1, he2]
          have := ih f2' rest (by simpa using h1) (by simpa using h2)
          rw [hr1, hr2] at this
          simp at this
          rw [this.1, this.2]

lemma splitSeq_nlnl_chunk (tail : List Char) :
    ∀ (p : List Char), hasNLNL p = false → p.getLast? ≠ some '\n' →
    splitSeq ['\n', '\n'] (p ++ '\n' :: '\n' :: tail) =
      p :: splitSeq ['\n', '\n'] tail := by
  intro p
  induction p with
  | nil =>
    intro _ _
    unfold splitSeq
    simp only [List.nil_append, List.length_cons]
    rw [splitSeqAux_cons_match _ _ _ (by simp) (by simp [List.isPrefixOf]) (by simp)]
    simp only [List.length_cons, List.length_nil, List.drop_succ_cons,
      List.drop_zero]
    rw [splitSeqAux_fuel _ (tail.length + 1) tail.length tail (by omega) (le_refl _)]
  | cons c p' ih =>
    intro hp hl
    have hp' : hasNLNL p' = false := hasNLNL_tail c p' hp
    have hl' : p'.getLast? ≠ some '\n' := by
      cases p' with
      | nil => simp
      | cons d p'' =>
        intro hcon
        exact hl (by rw [List.getLast?_cons_cons]; exact hcon)
    have hpref : (['\n', '\n'].isPrefixOf
        (c :: (p' ++ '\n' :: '\n' :: tail))) = false := by
      cases p' with
      | nil =>
        have hc : ¬ ('\n' = c) := by
          intro h
          exact hl (by simp [← h])
        simp [List.isPrefixOf, hc]
      | cons d p'' =>
        by_cases hc : c = '\n'
        · by_cases hd : d = '\n'
          · exfalso
            rw [hasNLNL] at hp
            simp [hc, hd] at hp
          · have hd' : ¬ ('\n' = d) := fun h => hd h.symm
            simp [List.isPrefixOf, hd']
        · have hc' : ¬ ('\n' = c) := fun h => hc h.symm
          simp [List.isPrefixOf, hc']
    unfold splitSeq
    simp only [List.cons_append, List.length_cons]
    obtain ⟨x, xs, hr, he⟩ := splitSeqAux_cons_nomatch ['\n', '\n']
      (p' ++ '\n' :: '\n' :: tail).length c _ hpref
    rw [he]
    have h2 := ih hp' hl'
    unfold splitSeq at h2
    rw [h2] at hr
    injection hr with hr1 hr2
    rw [← hr1, ← hr2]

lemma splitSeq_nlnl_no_sep : ∀ (p : List Char), hasNLNL p = false →
    splitSeq ['\n', '\n'] p = [p] := by
  intro p
  induction p with
  | nil => intro _; rfl
  | cons c p' ih =>
    intro hp
    have hp' : hasNLNL p' = false := hasNLNL_tail c p' hp
    have hpref : (['\n', '\n'].isPrefixOf (c :: p')) = false := by
      cases p' with
      | nil => simp [List.isPrefixOf]
      | cons d p'' =>
        by_cases hc : c = '\n'
        · by_cases hd : d = '\n'
          · exfalso
            rw [hasNLNL] at hp
            simp [hc, hd] at hp
          · have hd' : ¬ ('\n' = d) := fun h => hd h.symm
            simp [List.isPrefixOf, hd']
        · have hc' : ¬ ('\n' = c) := fun h => hc h.symm
          simp [List.isPrefixOf, hc']
    unfold splitSeq
    simp only [List.length_cons]
    obtain ⟨x, xs, hr, he⟩ := splitSeqAux_cons_nomatch ['\n', '\n']
      p'.length c p' hpref
    rw [he]
    have h2 := ih hp'
    unfold splitSeq at h2
    rw [h2] at hr
    injection hr with hr1 hr2
    rw [← hr1, ← hr2]

lemma splitSeq_nospace_chunk (tail : List Char) :
    ∀ (p : List Char), (∀ x ∈ p, x ≠ ' ') →
    splitSeq arrowSep (p ++ arrowSep ++ tail) = p :: splitSeq arrowSep tail := by
  intro p
  induction p with
  | nil =>
    intro _
    unfold splitSeq
    simp only [List.nil_append, arrowSep, List.cons_append, List.nil_append,
      List.length_cons]
    rw [splitSeqAux_cons_match _ _ _ (by simp)
      (by
        rw [List.isPrefixOf_iff_prefix]
        exact ⟨tail, rfl⟩)
      (by simp)]
    simp only [List.length_cons, List.length_nil, List.drop_succ_cons,
      List.drop_zero]
    rw [splitSeqAux_fuel _ (tail.length + 1 + 1 + 1 + 1) tail.length tail
      (by omega) (le_refl _)]
  | cons c p' ih =>
    intro hp
    have hp' : ∀ x ∈ p', x ≠ ' ' := fun x hx => hp x (List.mem_cons_of_mem c hx)
    have hpref : (arrowSep.isPrefixOf (c :: (p' ++ (arrowSep ++ tail)))) = false := by
      have hc : ¬ (' ' = c) := by
        intro h
        exact hp c (by simp) (by rw [← h])
      simp [arrowSep, List.isPrefixOf, hc]
    unfold splitSeq
    rw [List.append_assoc]
    simp only [List.cons_append, List.length_cons]
    obtain ⟨x, xs, hr, he⟩ := splitSeqAux_cons_nomatch arrowSep
      (p' ++ (arrowSep ++ tail)).length c _ hpref
    rw [he]
    have h2 := ih hp'
    unfold splitSeq at h2
    rw [List.append_assoc] at h2
    rw [h2] at hr
    injection hr with hr1 hr2
    rw [← hr1, ← hr2]

lemma splitSeq_nospace_no_sep : ∀ (p : List Char), (∀ x ∈ p, x ≠ ' ') →
    splitSeq arrowSep p = [p] := by
  intro p
  induction p with
  | nil => intro _; rfl
  | cons c p' ih =>
    intro hp
    have hp' : ∀ x ∈ p', x ≠ ' ' := fun x hx => hp x (List.mem_cons_of_mem c hx)
    have hpref : (arrowSep.isPrefixOf (c :: p')) = false := by
      have hc : ¬ (' ' = c) := by
        intro h
        exact hp c (by simp) (by rw [← h])
      simp [arrowSep, List.isPrefixOf, hc]
    unfold splitSeq
    simp only [List.length_cons]
    obtain ⟨x, xs, hr, he⟩ := splitSeqAux_cons_nomatch arrowSep
      p'.length c p' hpref
    rw [he]
    have h2 := ih hp'
    unfold splitSeq at h2
    rw [h2] at hr
    injection hr with hr1 hr2
    rw [← hr1, ← hr2]

lemma joinSep_cons (sep : List Char) (x y : List Char) (rest : List (List Char)) :
    joinSep sep (x :: y :: rest) = x ++ sep ++ joinSep sep (y :: rest) := rfl

lemma splitSeq_joinSep_nlnl :
    ∀ (parts : List (List Char)), parts ≠ [] →
      (∀ p ∈ parts, hasNLNL p = false ∧ p.getLast? ≠ some '\n') →
      splitSeq ['\n', '\n'] (joinSep ['\n', '\n'] parts) = parts := by
  intro parts
  induction parts with
  | nil => intro h _; exact absurd rfl h
  | cons x rest ih =>
    intro _ h
    cases rest with
    | nil =>
      exact splitSeq_nlnl_no_sep x (h x (by simp)).1
    | cons y rest' =>
      rw [joinSep_cons]
      rw [List.append_assoc]
      have hstep : x ++ (['\n', '\n'] ++ joinSep ['\n', '\n'] (y :: rest')) =
          x ++ '\n' :: '\n' :: joinSep ['\n', '\n'] (y :: rest') := rfl
      rw [hstep, splitSeq_nlnl_chunk _ x (h x (by simp)).1 (h x (by simp)).2,
        ih (by simp) (fun p hp => h p (List.mem_cons_of_mem x hp))]

lemma splitSeqAux_nlnl_parts :
    ∀ (fuel : Nat) (l : List Char), l.length ≤ fuel →
      (∀ p ∈ splitSeqAux ['\n', '\n'] fuel l, hasNLNL p = false) ∧
      (∀ x xs ch, splitSeqAux ['\n', '\n'] fuel l = x :: xs →
        x.head? = some ch → l.head? = some ch) := by
  intro fuel
  induction fuel with
  | zero =>
    intro l hl
    have : l = [] := by
      cases l with
      | nil => rfl
      | cons c r => simp at hl
    subst this
    constructor
    · intro p hp
      simp [splitSeqAux] at hp
      rw [hp]
      rfl
    · intro x xs ch he hx
      simp [splitSeqAux] at he
      rw [he.1] at hx
      simp at hx
  | succ f ih =>
    intro l hl
    cases l with
    | nil =>
      constructor
      · intro p hp
        simp [splitSeqAux] at hp
        rw [hp]; rfl
      · intro x xs ch he hx
        simp [splitSeqAux] at he
        rw [he.1] at hx
        simp at hx
    | cons c rest =>
      by_cases hm : (['\n', '\n'].isPrefixOf (c :: rest)) = true
      · rw [splitSeqAux_cons_match _ _ _ (by simp) hm (by simp)]
        have hdrop : ((c :: rest).drop (['\n', '\n'] : List Char).length).length ≤ f := by
          simp only [List.length_cons, List.length_drop] at hl ⊢
          simp only [List.length_cons, List.length_nil]
          omega
        obtain ⟨ihp, _⟩ := ih _ hdrop
        constructor
        · intro p hp
          rcases List.mem_cons.mp hp with rfl | hp'
          · rfl
          · exact ihp p hp'
        · intro x xs ch he hx
          injection he with he1 _
          rw [← he1] at hx
          simp at hx
      · have hm' : (['\n', '\n'].isPrefixOf (c :: rest)) = false := by
          cases hv : ['\n', '\n'].isPrefixOf (c :: rest)
          · rfl
          · exact absurd hv hm
        obtain ⟨x, xs, hr, he⟩ := splitSeqAux_cons_nomatch _ f c rest hm'
        rw [he]
        obtain ⟨ihp, ihh⟩ := ih rest (by simp only [List.length_cons] at hl; omega)
        constructor
        · intro p hp
          rcases List.mem_cons.mp hp with rfl | hp'
          · cases hx : x with
            | nil => rfl
            | cons d x' =>
              rw [hasNLNL, Bool.or_eq_false_iff]
              constructor
              · rw [Bool.and_eq_false_iff]
                by_cases hc : c = '\n'
                · right
                  rw [beq_eq_false_iff_ne]
                  intro hd
                  have hh := ihh x xs d hr (by rw [hx]; rfl)
                  rw [hd] at hh
                  cases rest with
                  | nil => simp at hh
                  | cons r0 rest' =>
                    simp at hh
                    rw [hc, hh] at hm'
                    simp [List.isPrefixOf] at hm'
                · left
                  rw [beq_eq_false_iff_ne]
                  exact hc
              · have := ihp x (by rw [hr]; simp)
                rw [hx] at this
                exact this
          · exact ihp p (by rw [hr]; exact List.mem_cons_of_mem x hp')
        · intro x2 xs2 ch he2 hx2
          injection he2 with he21 _
          rw [← he21] at hx2
          simp at hx2
          rw [List.head?_cons, hx2]

lemma splitSeq_nlnl_parts (l : List Char) :
    ∀ p ∈ splitSeq ['\n', '\n'] l, hasNLNL p = false :=
  (splitSeqAux_nlnl_parts l.length l (le_refl _)).1

lemma splitOnChar_ne_nil (c : Char) : ∀ l : List Char, splitOnChar c l ≠ []
  | [] => by simp [splitOnChar]
  | d :: rest => by
    simp only [splitOnChar]
    by_cases h : d = c
    · rw [if_pos h]; simp
    · rw [if_neg h]
      cases hr : splitOnChar c rest with
      | nil => simp
      | cons x xs => simp

lemma splitOnChar_cons_other (c d : Char) (l : List Char) (hc : d ≠ c) :
    ∃ x xs, splitOnChar c l = x :: xs ∧
      splitOnChar c (d :: l) = (d :: x) :: xs := by
  cases hr : splitOnChar c l with
  | nil => exact absurd hr (splitOnChar_ne_nil c l)
  | cons x xs =>
    refine ⟨x, xs, rfl, ?_⟩
    simp only [splitOnChar, if_neg hc, hr]

lemma splitOnChar_append_sep (c : Char) (B : List Char) :
    ∀ A : List Char, c ∉ A →
      splitOnChar c (A ++ c :: B) = A :: splitOnChar c B
  | [], _ => by simp [splitOnChar]
  | d :: A', hA => by
    have hd : d ≠ c := fun h => hA (by simp [h])
    have hA' : c ∉ A' := fun h => hA (List.mem_cons_of_mem d h)
    obtain ⟨x, xs, hr, he⟩ := splitOnChar_cons_other c d (A' ++ c :: B) hd
    rw [List.cons_append, he]
    rw [splitOnChar_append_sep c B A' hA'] at hr
    injection hr with hr1 hr2
    rw [← hr1, ← hr2]

lemma splitOnChar_no_sep (c : Char) :
    ∀ A : List Char, c ∉ A → splitOnChar c A = [A]
  | [], _ => rfl
  | d :: A', hA => by
    have hd : d ≠ c := fun h => hA (by simp [h])
    have hA' : c ∉ A' := fun h => hA (List.mem_cons_of_mem d h)
    obtain ⟨x, xs, hr, he⟩ := splitOnChar_cons_other c d A' hd
    rw [he]
    rw [splitOnChar_no_sep c A' hA'] at hr
    injection hr with hr1 hr2
    rw [← hr1, ← hr2]

lemma joinSep_splitOnChar (c : Char) :
    ∀ l : List Char, joinSep [c] (splitOnChar c l) = l
  | [] => rfl
  | d :: rest => by
    have ihr := joinSep_splitOnChar c rest
    by_cases hd : d = c
    · subst hd
      have hstep : splitOnChar d (d :: rest) = [] :: splitOnChar d rest := by
        simp [splitOnChar]
      rw [hstep]
      cases hr : splitOnChar d rest with
      | nil => exact absurd hr (splitOnChar_ne_nil d rest)
      | cons x xs =>
        rw [joinSep_cons]
        rw [hr] at ihr
        simp only [List.nil_append, List.singleton_append]
        rw [ihr]
    · obtain ⟨x, xs, hr, he⟩ := splitOnChar_cons_other c d rest hd
      rw [he]
      rw [hr] at ihr
      cases xs with
      | nil =>
        simp only [joinSep] at ihr ⊢
        rw [ihr]
      | cons y xs' =>
        rw [joinSep_cons]
        rw [joinSep_cons] at ihr
        simp only [List.cons_append, List.append_assoc] at ihr ⊢
        rw [ihr]

lemma splitOnChar_getLast_nil (c : Char) :
    ∀ l : List Char, (splitOnChar c l).getLast? = some [] →
      l = [] ∨ l.getLast? = some c
  | [], _ => Or.inl rfl
  | d :: rest, h => by
    by_cases hd : d = c
    · subst hd
      have hstep : splitOnChar d (d :: rest) = [] :: splitOnChar d rest := by
        simp [splitOnChar]
      rw [hstep] at h
      cases hr : splitOnChar d rest with
      | nil => exact absurd hr (splitOnChar_ne_nil d rest)
      | cons x xs =>
        rw [hr, List.getLast?_cons_cons, ← hr] at h
        rcases splitOnChar_getLast_nil d rest h with hrest | hrest
        · subst hrest
          exact Or.inr rfl
        · right
          cases rest with
          | nil => simp at hrest
          | cons r0 rest' =>
            rw [List.getLast?_cons_cons]
            exact hrest
    · obtain ⟨x, xs, hr, he⟩ := splitOnChar_cons_other c d rest hd
      rw [he] at h
      cases xs with
      | nil => simp at h
      | cons y xs' =>
        rw [List.getLast?_cons_cons] at h
        have h2 : (splitOnChar c rest).getLast? = some [] := by
          rw [hr, List.getLast?_cons_cons]
          exact h
        rcases splitOnChar_getLast_nil c rest h2 with hrest | hrest
        · subst hrest
          simp [splitOnChar] at hr
        · right
          cases rest with
          | nil => simp at hrest
          | cons r0 rest' =>
            rw [List.getLast?_cons_cons]
            exact hrest

lemma joinSep_drop_suffix (sep : List Char) :
    ∀ (parts : List (List Char)) (k : Nat),
      ∃ A, A ++ joinSep sep (parts.drop k) = joinSep sep parts := by
  intro parts
  induction parts with
  | nil => intro k; exact ⟨[], by simp⟩
  | cons x rest ih =>
    intro k
    cases k with
    | zero => exact ⟨[], by simp⟩
    | succ k' =>
      obtain ⟨A, hA⟩ := ih k'
      cases rest with
      | nil =>
        refine ⟨x, ?_⟩
        simp [joinSep]
      | cons y rest' =>
        refine ⟨x ++ sep ++ A, ?_⟩
        simp only [List.drop_succ_cons]
        rw [joinSep_cons, List.append_assoc (x ++ sep) A, hA]

lemma head?_mem_of_eq {α : Type} (l : List α) (x : α) (h : l.head? = some x) :
    x ∈ l := by
  cases l with
  | nil => simp at h
  | cons a as =>
    rw [List.head?_cons] at h
    injection h with h
    rw [← h]
    simp

lemma digitChar_facts (d : Nat) (hd : d < 10) :
    isAsciiDigit (digitChar d) = true ∧ digitVal (digitChar d) = d := by
  interval_cases d <;> exact ⟨by decide, by decide⟩

lemma natToDigits_spec (n : Nat) :
    (natToDigits n).all isAsciiDigit = true ∧ natToDigits n ≠ [] := by
  induction n using Nat.strong_induction_on with
  | _ n ih =>
    rw [natToDigits]
    by_cases h : n < 10
    · rw [dif_pos h]
      refine ⟨?_, by simp⟩
      simp [List.all_cons, (digitChar_facts n h).1]
    · rw [dif_neg h]
      have hlt : n / 10 < n := Nat.div_lt_self (by omega) (by norm_num)
      obtain ⟨h1, _⟩ := ih (n / 10) hlt
      constructor
      · rw [List.all_append, h1]
        simp [List.all_cons, (digitChar_facts (n % 10) (Nat.mod_lt _ (by norm_num))).1]
      · simp

lemma digitsToNat_append_single (ds : List Char) (c : Char) :
    digitsToNat (ds ++ [c]) = digitsToNat ds * 10 + digitVal c := by
  unfold digitsToNat
  rw [List.foldl_append]
  rfl

lemma digitsToNat_natToDigits (n : Nat) :
    digitsToNat (natToDigits n) = n := by
  induction n using Nat.strong_induction_on with
  | _ n ih =>
    rw [natToDigits]
    by_cases h : n < 10
    · rw [dif_pos h]
      show 0 * 10 + digitVal (digitChar n) = n
      rw [(digitChar_facts n h).2]
      omega
    · rw [dif_neg h]
      have hlt : n / 10 < n := Nat.div_lt_self (by omega) (by norm_num)
      rw [digitsToNat_append_single, ih (n / 10) hlt,
        (digitChar_facts (n % 10) (Nat.mod_lt _ (by norm_num))).2]
      omega

lemma digitsToNat_replicate_zero (k : Nat) (ds : List Char) :
    digitsToNat (List.replicate k '0' ++ ds) = digitsToNat ds := by
  unfold digitsToNat
  rw [List.foldl_append]
  have hz : List.foldl (fun acc c => acc * 10 + digitVal c) 0
      (List.replicate k '0') = 0 := by
    induction k with
    | zero => rfl
    | succ k' ihk =>
      rw [List.replicate_succ, List.foldl_cons]
      show List.foldl _ (0 * 10 + digitVal '0') _ = 0
      have : (0 * 10 + digitVal '0') = 0 := by decide
      rw [this]
      exact ihk
  rw [hz]

lemma digit_char_class (c : Char) (h : isAsciiDigit c = true) :
    isPySpace c = false ∧ c ≠ '+' ∧ c ≠ '-' ∧ c ≠ '\n' ∧ c ≠ ':' ∧
      c ≠ ',' ∧ c ≠ ' ' := by
  refine ⟨?_, ?_, ?_, ?_, ?_, ?_, ?_⟩
  · cases hv : isPySpace c
    · rfl
    · exfalso
      simp [isPySpace] at hv
      have hv6 : c = ' ' ∨ c = '\t' ∨ c = '\n' ∨ c = '\x0d' ∨ c = '\x0b' ∨
          c = '\x0c' := by tauto
      rcases hv6 with rfl | rfl | rfl | rfl | rfl | rfl <;> exact absurd h (by decide)
  · intro hc; rw [hc] at h; exact absurd h (by decide)
  · intro hc; rw [hc] at h; exact absurd h (by decide)
  · intro hc; rw [hc] at h; exact absurd h (by decide)
  · intro hc; rw [hc] at h; exact absurd h (by decide)
  · intro hc; rw [hc] at h; exact absurd h (by decide)
  · intro hc; rw [hc] at h; exact absurd h (by decide)

lemma all_digits_mem (l : List Char) (hall : l.all isAsciiDigit = true)
    (x : Char) (hx : x ∈ l) : isAsciiDigit x = true := by
  rw [List.all_eq_true] at hall
  exact hall x hx

lemma pyStrip_all_digits (l : List Char) (hall : l.all isAsciiDigit = true) :
    pyStrip l = l := by
  apply pyStrip_eq_self
  · intro x hx
    exact (digit_char_class x (all_digits_mem l hall x (head?_mem_of_eq l x hx))).1
  · intro x hx
    exact (digit_char_class x (all_digits_mem l hall x (getLast?_mem_of_eq l x hx))).1

lemma pythonInt_natToDigits (n : Nat) :
    pythonInt (natToDigits n) = some (n : Int) := by
  obtain ⟨hall, hne⟩ := natToDigits_spec n
  obtain ⟨d, ds, hds⟩ : ∃ d ds, natToDigits n = d :: ds := by
    cases hv : natToDigits n with
    | nil => exact absurd hv hne
    | cons d ds => exact ⟨d, ds, rfl⟩
  have hd : isAsciiDigit d = true :=
    all_digits_mem _ hall d (by rw [hds]; simp)
  unfold pythonInt
  rw [pyStrip_all_digits _ hall, hds]
  simp only []
  rw [if_neg (digit_char_class d hd).2.1, if_neg (digit_char_class d hd).2.2.1,
    if_pos (by rw [← hds]; exact hall)]
  rw [← hds, digitsToNat_natToDigits]

lemma pythonInt_intToString (z : Int) : pythonInt (intToString z) = some z := by
  unfold intToString
  by_cases hz : z < 0
  · rw [if_pos hz]
    obtain ⟨hall, hne⟩ := natToDigits_spec z.natAbs
    unfold pythonInt
    have hstrip : pyStrip ('-' :: natToDigits z.natAbs) =
        '-' :: natToDigits z.natAbs := by
      apply pyStrip_eq_self
      · intro x hx
        rw [List.head?_cons] at hx
        injection hx with hx
        rw [← hx]
        decide
      · intro x hx
        have h2 : (natToDigits z.natAbs).getLast? = some x := by
          cases hv : natToDigits z.natAbs with
          | nil => exact absurd hv hne
          | cons a as =>
            rw [hv, List.getLast?_cons_cons] at hx
            exact hx
        exact (digit_char_class x (all_digits_mem _ hall x
          (getLast?_mem_of_eq _ x h2))).1
    rw [hstrip]
    simp only []
    rw [if_neg (show ¬ (('-' : Char) = '+') from by decide)]
    rw [if_pos trivial]
    rw [if_neg (by
      rw [List.isEmpty_iff]
      exact hne)]
    rw [if_pos hall, digitsToNat_natToDigits]
    congr 1
    omega
  · rw [if_neg hz]
    rw [pythonInt_natToDigits]
    congr 1
    omega

lemma replicate_zero_all (k : Nat) :
    (List.replicate k '0').all isAsciiDigit = true := by
  rw [List.all_eq_true]
  intro x hx
  rw [List.mem_replicate] at hx
  rw [hx.2]
  decide

lemma pad2_spec (l : List Char) (hall : l.all isAsciiDigit = true) :
    (pad2 l).all isAsciiDigit = true ∧ pad2 l ≠ [] ∧
      digitsToNat (pad2 l) = digitsToNat l := by
  unfold pad2
  by_cases h : l.length < 2
  · rw [if_pos h]
    refine ⟨?_, ?_, digitsToNat_replicate_zero _ l⟩
    · rw [List.all_append, replicate_zero_all, hall]
      rfl
    · have : 2 - l.length ≥ 1 := by omega
      cases hk : 2 - l.length with
      | zero => omega
      | succ k' => simp [List.replicate_succ]
  · rw [if_neg h]
    refine ⟨hall, ?_, rfl⟩
    intro hl
    rw [hl] at h
    simp at h

lemma pad3_spec (l : List Char) (hall : l.all isAsciiDigit = true) :
    (pad3 l).all isAsciiDigit = true ∧ pad3 l ≠ [] ∧
      digitsToNat (pad3 l) = digitsToNat l := by
  unfold pad3
  by_cases h : l.length < 3
  · rw [if_pos h]
    refine ⟨?_, ?_, digitsToNat_replicate_zero _ l⟩
    · rw [List.all_append, replicate_zero_all, hall]
      rfl
    · have : 3 - l.length ≥ 1 := by omega
      cases hk : 3 - l.length with
      | zero => omega
      | succ k' => simp [List.replicate_succ]
  · rw [if_neg h]
    refine ⟨hall, ?_, rfl⟩
    intro hl
    rw [hl] at h
    simp at h

lemma pythonInt_digits (l : List Char) (hne : l ≠ [])
    (hall : l.all isAsciiDigit = true) :
    pythonInt l = some ((digitsToNat l : Nat) : Int) := by
  obtain ⟨d, ds, hds⟩ : ∃ d ds, l = d :: ds := by
    cases l with
    | nil => exact absurd rfl hne
    | cons d ds => exact ⟨d, ds, rfl⟩
  have hd : isAsciiDigit d = true :=
    all_digits_mem _ hall d (by rw [hds]; simp)
  unfold pythonInt
  rw [pyStrip_all_digits _ hall, hds]
  simp only []
  rw [if_neg (digit_char_class d hd).2.1, if_neg (digit_char_class d hd).2.2.1,
    if_pos (by rw [← hds]; exact hall)]

lemma pad2_mem (l : List Char) (x : Char) (hx : x ∈ pad2 l) :
    x ∈ l ∨ x = '0' := by
  unfold pad2 at hx
  by_cases h : l.length < 2
  · rw [if_pos h] at hx
    rcases List.mem_append.mp hx with hx' | hx'
    · right
      exact (List.mem_replicate.mp hx').2
    · left
      exact hx'
  · rw [if_neg h] at hx
    exact Or.inl hx

lemma pad3_mem (l : List Char) (x : Char) (hx : x ∈ pad3 l) :
    x ∈ l ∨ x = '0' := by
  unfold pad3 at hx
  by_cases h : l.length < 3
  · rw [if_pos h] at hx
    rcases List.mem_append.mp hx with hx' | hx'
    · right
      exact (List.mem_replicate.mp hx').2
    · left
      exact hx'
  · rw [if_neg h] at hx
    exact Or.inl hx

lemma format_timestamp_chars (m : Int) :
    ∀ x ∈ format_timestamp_tr m, isAsciiDigit x = true ∨ x = ':' ∨ x = ',' := by
  intro x hx
  unfold format_timestamp_tr at hx
  have hdig : ∀ (n : Nat) (y : Char), y ∈ pad2 (natToDigits n) →
      isAsciiDigit y = true := by
    intro n y hy
    rcases pad2_mem _ y hy with hy' | hy'
    · exact all_digits_mem _ (natToDigits_spec n).1 y hy'
    · rw [hy']; decide
  have hdig3 : ∀ (n : Nat) (y : Char), y ∈ pad3 (natToDigits n) →
      isAsciiDigit y = true := by
    intro n y hy
    rcases pad3_mem _ y hy with hy' | hy'
    · exact all_digits_mem _ (natToDigits_spec n).1 y hy'
    · rw [hy']; decide
  rcases List.mem_append.mp hx with h1 | h1
  · rcases List.mem_append.mp h1 with h2 | h2
    · rcases List.mem_append.mp h2 with h3 | h3
      · exact Or.inl (hdig _ x h3)
      · rcases List.mem_cons.mp h3 with rfl | h4
        · exact Or.inr (Or.inl rfl)
        · exact Or.inl (hdig _ x h4)
    · rcases List.mem_cons.mp h2 with rfl | h4
      · exact Or.inr (Or.inl rfl)
      · exact Or.inl (hdig _ x h4)
  · rcases List.mem_cons.mp h1 with rfl | h4
    · exact Or.inr (Or.inr rfl)
    · exact Or.inl (hdig3 _ x h4)

lemma pad2_all_digits (n : Nat) :
    ∀ y ∈ pad2 (natToDigits n), isAsciiDigit y = true := by
  intro y hy
  rcases pad2_mem _ y hy with hy' | hy'
  · exact all_digits_mem _ (natToDigits_spec n).1 y hy'
  · rw [hy']; decide

lemma pad3_all_digits (n : Nat) :
    ∀ y ∈ pad3 (natToDigits n), isAsciiDigit y = true := by
  intro y hy
  rcases pad3_mem _ y hy with hy' | hy'
  · exact all_digits_mem _ (natToDigits_spec n).1 y hy'
  · rw [hy']; decide

lemma pythonInt_pad2 (n : Nat) :
    pythonInt (pad2 (natToDigits n)) = some ((n : Nat) : Int) := by
  obtain ⟨hall, hne, hval⟩ := pad2_spec (natToDigits n) (natToDigits_spec n).1
  rw [pythonInt_digits _ hne hall, hval, digitsToNat_natToDigits]

lemma pythonInt_pad3 (n : Nat) :
    pythonInt (pad3 (natToDigits n)) = some ((n : Nat) : Int) := by
  obtain ⟨hall, hne, hval⟩ := pad3_spec (natToDigits n) (natToDigits_spec n).1
  rw [pythonInt_digits _ hne hall, hval, digitsToNat_natToDigits]

/-- Parsing the rendered `HH:MM:SS,mmm` form of a nonnegative
millisecond count recovers it exactly. -/
lemma parse_format_timestamp_nat (t : Nat) :
    parse_timestamp_tr (pad2 (natToDigits (t / (1000 * 60 * 60))) ++
      ':' :: pad2 (natToDigits (t % (1000 * 60 * 60) / (1000 * 60))) ++
      ':' :: pad2 (natToDigits (t % (1000 * 60) / 1000)) ++
      ',' :: pad3 (natToDigits (t % 1000))) = (t : Int) := by
  set a := t / (1000 * 60 * 60) with ha
  set b := t % (1000 * 60 * 60) / (1000 * 60) with hb
  set c := t % (1000 * 60) / 1000 with hc
  set d := t % 1000 with hd
  have hcomma : ',' ∉ (pad2 (natToDigits a) ++ ':' :: pad2 (natToDigits b)) ++
      ':' :: pad2 (natToDigits c) := by
    intro h
    rcases List.mem_append.mp h with h1 | h1
    · rcases List.mem_append.mp h1 with h2 | h2
      · exact absurd (pad2_all_digits _ _ h2) (by decide)
      · rcases List.mem_cons.mp h2 with h3 | h3
        · exact absurd h3 (by decide)
        · exact absurd (pad2_all_digits _ _ h3) (by decide)
    · rcases List.mem_cons.mp h1 with h3 | h3
      · exact absurd h3 (by decide)
      · exact absurd (pad2_all_digits _ _ h3) (by decide)
  have hd3 : ',' ∉ pad3 (natToDigits d) := by
    intro h
    exact absurd (pad3_all_digits _ _ h) (by decide)
  have hca : ':' ∉ pad2 (natToDigits a) := by
    intro h
    exact absurd (pad2_all_digits _ _ h) (by decide)
  have hcb : ':' ∉ pad2 (natToDigits b) := by
    intro h
    exact absurd (pad2_all_digits _ _ h) (by decide)
  have hcc : ':' ∉ pad2 (natToDigits c) := by
    intro h
    exact absurd (pad2_all_digits _ _ h) (by decide)
  have h1 : splitOnChar ','
      (((pad2 (natToDigits a) ++ ':' :: pad2 (natToDigits b)) ++
        ':' :: pad2 (natToDigits c)) ++ ',' :: pad3 (natToDigits d)) =
      [(pad2 (natToDigits a) ++ ':' :: pad2 (natToDigits b)) ++
        ':' :: pad2 (natToDigits c), pad3 (natToDigits d)] := by
    rw [splitOnChar_append_sep ',' _ _ hcomma, splitOnChar_no_sep ',' _ hd3]
  have hassoc : (pad2 (natToDigits a) ++ ':' :: pad2 (natToDigits b)) ++
      ':' :: pad2 (natToDigits c) =
      pad2 (natToDigits a) ++
        ':' :: (pad2 (natToDigits b) ++ ':' :: pad2 (natToDigits c)) := by
    simp [List.append_assoc]
  have h2 : splitOnChar ':'
      ((pad2 (natToDigits a) ++ ':' :: pad2 (natToDigits b)) ++
        ':' :: pad2 (natToDigits c)) =
      [pad2 (natToDigits a), pad2 (natToDigits b), pad2 (natToDigits c)] := by
    rw [hassoc, splitOnChar_append_sep ':' _ _ hca,
      splitOnChar_append_sep ':' _ _ hcb, splitOnChar_no_sep ':' _ hcc]
  have h3 : List.mapM pythonInt
      [pad2 (natToDigits a), pad2 (natToDigits b), pad2 (natToDigits c)] =
      some [((a : Nat) : Int), ((b : Nat) : Int), ((c : Nat) : Int)] := by
    simp [List.mapM, List.mapM.loop, pythonInt_pad2]
  unfold parse_timestamp_tr
  rw [h1]
  simp only []
  rw [h2, h3]
  simp only []
  rw [pythonInt_pad3]
  simp only []
  unfold parse_timestamp_fields_tr
  have hb60 : b < 60 := by omega
  have hc60 : c < 60 := by omega
  have hd1000 : d < 1000 := by omega
  omega

/-- Parsing the formatted timestamp of any millisecond count recovers
its clamp at 0 (the redistributor parser). -/
lemma parse_format_timestamp_tr (m : Int) :
    parse_timestamp_tr (format_timestamp_tr m) = max 0 m := by
  have hF : format_timestamp_tr m =
      pad2 (natToDigits ((max 0 m).toNat / (1000 * 60 * 60))) ++
        ':' :: pad2 (natToDigits ((max 0 m).toNat % (1000 * 60 * 60) / (1000 * 60))) ++
        ':' :: pad2 (natToDigits ((max 0 m).toNat % (1000 * 60) / 1000)) ++
        ',' :: pad3 (natToDigits ((max 0 m).toNat % 1000)) := rfl
  rw [hF, parse_format_timestamp_nat]
  omega

lemma parse_timestamp_tr_nonneg (s : List Char) : 0 ≤ parse_timestamp_tr s := by
  unfold parse_timestamp_tr
  split
  · split
    · split
      · unfold parse_timestamp_fields_tr
        exact le_max_left 0 _
      · exact le_refl 0
    · exact le_refl 0
  · exact le_refl 0

lemma pythonInt_pyStrip (s : List Char) : pythonInt (pyStrip s) = pythonInt s := by
  unfold pythonInt
  rw [pyStrip_idem]

lemma exists_getLast?_of_ne_nil {α : Type} (l : List α) (h : l ≠ []) :
    ∃ x, l.getLast? = some x := by
  cases l with
  | nil => exact absurd rfl h
  | cons a as => exact ⟨(a :: as).getLast (by simp), List.getLast?_eq_getLast _ _⟩

lemma getLast?_cons_of_ne_nil {α : Type} (a : α) (l : List α) (h : l ≠ []) :
    (a :: l).getLast? = l.getLast? := by
  cases l with
  | nil => exact absurd rfl h
  | cons b l' => rw [List.getLast?_cons_cons]

lemma head?_append_left {α : Type} (l1 l2 : List α) (x : α)
    (h : l1.head? = some x) : (l1 ++ l2).head? = some x := by
  cases l1 with
  | nil => simp at h
  | cons a as =>
    rw [List.head?_cons] at h
    rw [List.cons_append, List.head?_cons]
    exact h

lemma getLast?_append_right {α : Type} (l1 l2 : List α) (x : α)
    (h : l2.getLast? = some x) : (l1 ++ l2).getLast? = some x := by
  induction l1 with
  | nil => simpa using h
  | cons a as ih =>
    rw [List.cons_append]
    have h2 : as ++ l2 ≠ [] := by
      intro hcon
      rcases List.append_eq_nil.mp hcon with ⟨_, h3⟩
      rw [h3] at h
      simp at h
    cases hc : as ++ l2 with
    | nil => exact absurd hc h2
    | cons b bs =>
      rw [List.getLast?_cons_cons, ← hc]
      exact ih

lemma getLast?_drop_of_lt {α : Type} : ∀ (k : Nat) (l : List α), k < l.length →
    (l.drop k).getLast? = l.getLast?
  | 0, _, _ => rfl
  | k+1, [], h => by simp at h
  | k+1, a :: l, h => by
    have hk : k < l.length := by
      simp only [List.length_cons] at h
      omega
    rw [List.drop_succ_cons, getLast?_drop_of_lt k l hk]
    cases l with
    | nil => simp at hk
    | cons b l' => rw [List.getLast?_cons_cons]

lemma joinSep_suffix_last (sep : List Char) :
    ∀ (parts : List (List Char)) (L : List Char), parts.getLast? = some L →
      ∃ B, joinSep sep parts = B ++ L
  | [], _, h => by simp at h
  | [x], L, h => by
    simp only [List.getLast?_singleton] at h
    injection h with h
    exact ⟨[], by simp [joinSep, h]⟩
  | x :: y :: rest, L, h => by
    rw [List.getLast?_cons_cons] at h
    obtain ⟨B, hB⟩ := joinSep_suffix_last sep (y :: rest) L h
    exact ⟨x ++ sep ++ B, by rw [joinSep_cons, hB]; simp [List.append_assoc]⟩

lemma joinSep_cons_of_ne_nil (sep x : List Char) (Q : List (List Char))
    (hQ : Q ≠ []) : joinSep sep (x :: Q) = x ++ sep ++ joinSep sep Q := by
  cases Q with
  | nil => exact absurd rfl hQ
  | cons q Q' => exact joinSep_cons sep x q Q'

lemma joinSep_head (sep x : List Char) (Q : List (List Char)) (c : Char)
    (hx : x.head? = some c) : (joinSep sep (x :: Q)).head? = some c := by
  cases Q with
  | nil => exact hx
  | cons q Q' =>
    rw [joinSep_cons]
    exact head?_append_left _ _ c (head?_append_left _ _ c hx)

lemma hasNLNL_cons_nl (t : List Char) (hh : t.head? ≠ some '\n')
    (ht : hasNLNL t = false) : hasNLNL ('\n' :: t) = false := by
  cases t with
  | nil => rfl
  | cons c t' =>
    rw [hasNLNL, Bool.or_eq_false_iff]
    refine ⟨?_, ht⟩
    rw [Bool.and_eq_false_iff]
    right
    rw [beq_eq_false_iff_ne]
    intro hc
    exact hh (by rw [List.head?_cons, hc])

lemma filterMap_map_id {α β : Type} (f : β → Option α) (g : α → β) :
    ∀ l : List α, (∀ a ∈ l, f (g a) = some a) → (l.map g).filterMap f = l
  | [], _ => rfl
  | a :: l', h => by
    rw [List.map_cons, List.filterMap_cons, h a (by simp)]
    rw [filterMap_map_id f g l' (fun b hb => h b (List.mem_cons_of_mem a hb))]

lemma natToDigits_head (n : Nat) :
    ∃ c, (natToDigits n).head? = some c ∧ isAsciiDigit c = true := by
  have h := natToDigits_spec n
  cases hc : natToDigits n with
  | nil => exact absurd hc h.2
  | cons c cs =>
    refine ⟨c, by rw [List.head?_cons], ?_⟩
    exact all_digits_mem _ h.1 c (by rw [hc]; simp)

lemma natToDigits_last (n : Nat) :
    ∃ c, (natToDigits n).getLast? = some c ∧ isAsciiDigit c = true := by
  have h := natToDigits_spec n
  obtain ⟨c, hc⟩ := exists_getLast?_of_ne_nil _ h.2
  exact ⟨c, hc, all_digits_mem _ h.1 c (getLast?_mem_of_eq _ c hc)⟩

lemma intToString_head (z : Int) :
    ∃ c, (intToString z).head? = some c ∧ isPySpace c = false := by
  unfold intToString
  by_cases hz : z < 0
  · rw [if_pos hz]
    exact ⟨'-', by rw [List.head?_cons], by decide⟩
  · rw [if_neg hz]
    obtain ⟨c, hc, hcd⟩ := natToDigits_head z.toNat
    exact ⟨c, hc, (digit_char_class c hcd).1⟩

lemma intToString_getLast (z : Int) :
    ∃ c, (intToString z).getLast? = some c ∧ isAsciiDigit c = true := by
  unfold intToString
  by_cases hz : z < 0
  · rw [if_pos hz]
    obtain ⟨c, hc, hcd⟩ := natToDigits_last z.natAbs
    refine ⟨c, ?_, hcd⟩
    rw [getLast?_cons_of_ne_nil _ _ (natToDigits_spec _).2]
    exact hc
  · rw [if_neg hz]
    exact natToDigits_last z.toNat

lemma intToString_no_nl (z : Int) : '\n' ∉ intToString z := by
  unfold intToString
  by_cases hz : z < 0
  · rw [if_pos hz]
    intro h
    rcases List.mem_cons.mp h with h1 | h1
    · exact absurd h1 (by decide)
    · exact absurd (digit_char_class '\n'
        (all_digits_mem _ (natToDigits_spec _).1 _ h1)).2.2.2.1 (by simp)
  · rw [if_neg hz]
    intro h
    exact absurd (digit_char_class '\n'
      (all_digits_mem _ (natToDigits_spec _).1 _ h)).2.2.2.1 (by simp)

lemma intToString_ne_nil (z : Int) : intToString z ≠ [] := by
  obtain ⟨c, hc, _⟩ := intToString_head z
  intro h
  rw [h] at hc
  simp at hc

lemma format_head_digit (m : Int) :
    ∃ c, (format_timestamp_tr m).head? = some c ∧ isAsciiDigit c = true := by
  have hF : format_timestamp_tr m =
      pad2 (natToDigits ((max 0 m).toNat / (1000 * 60 * 60))) ++
        ':' :: pad2 (natToDigits ((max 0 m).toNat % (1000 * 60 * 60) / (1000 * 60))) ++
        ':' :: pad2 (natToDigits ((max 0 m).toNat % (1000 * 60) / 1000)) ++
        ',' :: pad3 (natToDigits ((max 0 m).toNat % 1000)) := rfl
  have hne : pad2 (natToDigits ((max 0 m).toNat / (1000 * 60 * 60))) ≠ [] :=
    (pad2_spec _ (natToDigits_spec _).1).2.1
  cases hc : pad2 (natToDigits ((max 0 m).toNat / (1000 * 60 * 60))) with
  | nil => exact absurd hc hne
  | cons c cs =>
    refine ⟨c, ?_, ?_⟩
    · rw [hF]
      exact head?_append_left _ _ c (head?_append_left _ _ c
        (head?_append_left _ _ c (by rw [hc, List.head?_cons])))
    · exact pad2_all_digits _ c (by rw [hc]; simp)

lemma format_getLast_digit (m : Int) :
    ∃ c, (format_timestamp_tr m).getLast? = some c ∧ isAsciiDigit c = true := by
  have hF : format_timestamp_tr m =
      pad2 (natToDigits ((max 0 m).toNat / (1000 * 60 * 60))) ++
        ':' :: pad2 (natToDigits ((max 0 m).toNat % (1000 * 60 * 60) / (1000 * 60))) ++
        ':' :: pad2 (natToDigits ((max 0 m).toNat % (1000 * 60) / 1000)) ++
        ',' :: pad3 (natToDigits ((max 0 m).toNat % 1000)) := rfl
  have hne : pad3 (natToDigits ((max 0 m).toNat % 1000)) ≠ [] :=
    (pad3_spec _ (natToDigits_spec _).1).2.1
  obtain ⟨c, hc⟩ := exists_getLast?_of_ne_nil _ hne
  refine ⟨c, ?_, pad3_all_digits _ c (getLast?_mem_of_eq _ c hc)⟩
  rw [hF]
  apply getLast?_append_right
  rw [getLast?_cons_of_ne_nil _ _ hne]
  exact hc

lemma format_pyStrip (m : Int) :
    pyStrip (format_timestamp_tr m) = format_timestamp_tr m := by
  obtain ⟨c, hc, hcd⟩ := format_head_digit m
  obtain ⟨d, hd, hdd⟩ := format_getLast_digit m
  apply pyStrip_eq_self
  · intro y hy
    rw [hc] at hy
    injection hy with hy
    rw [← hy]
    exact (digit_char_class c hcd).1
  · intro y hy
    rw [hd] at hy
    injection hy with hy
    rw [← hy]
    exact (digit_char_class d hdd).1

lemma format_no_space (m : Int) : ∀ x ∈ format_timestamp_tr m, x ≠ ' ' := by
  intro x hx
  rcases format_timestamp_chars m x hx with hd | hc | hc
  · exact (digit_char_class x hd).2.2.2.2.2.2
  · rw [hc]; decide
  · rw [hc]; decide

lemma format_no_nl (m : Int) : ∀ x ∈ format_timestamp_tr m, x ≠ '\n' := by
  intro x hx
  rcases format_timestamp_chars m x hx with hd | hc | hc
  · exact (digit_char_class x hd).2.2.2.1
  · rw [hc]; decide
  · rw [hc]; decide

/-- The three content lines a segment contributes, joined by single
newlines: the block of that segment between blank-line separators. -/
def serialize_block (s : SubtitleSegment) : List Char :=
  intToString s.number ++ '\n' ::
    (format_timestamp_tr s.start_ms ++ arrowSep ++ format_timestamp_tr s.end_ms) ++
    '\n' :: s.text

lemma tsline_no_nl (a b : Int) :
    '\n' ∉ format_timestamp_tr a ++ arrowSep ++ format_timestamp_tr b := by
  intro h
  rcases List.mem_append.mp h with h1 | h1
  · rcases List.mem_append.mp h1 with h2 | h2
    · exact format_no_nl a '\n' h2 rfl
    · exact absurd h2 (by decide)
  · exact format_no_nl b '\n' h1 rfl

lemma tsline_head (a b : Int) :
    ∃ c, (format_timestamp_tr a ++ arrowSep ++ format_timestamp_tr b).head? = some c ∧
      isPySpace c = false := by
  obtain ⟨c, hc, hcd⟩ := format_head_digit a
  exact ⟨c, head?_append_left _ _ c (head?_append_left _ _ c hc),
    (digit_char_class c hcd).1⟩

lemma tsline_last (a b : Int) :
    ∃ c, (format_timestamp_tr a ++ arrowSep ++ format_timestamp_tr b).getLast? = some c ∧
      isPySpace c = false ∧ c ≠ '\n' := by
  obtain ⟨c, hc, hcd⟩ := format_getLast_digit b
  exact ⟨c, getLast?_append_right _ _ c hc, (digit_char_class c hcd).1,
    (digit_char_class c hcd).2.2.2.1⟩

lemma tsline_pyStrip (a b : Int) :
    pyStrip (format_timestamp_tr a ++ arrowSep ++ format_timestamp_tr b) =
      format_timestamp_tr a ++ arrowSep ++ format_timestamp_tr b := by
  obtain ⟨c, hc, hcw⟩ := tsline_head a b
  obtain ⟨d, hd, hdw, _⟩ := tsline_last a b
  apply pyStrip_eq_self
  · intro y hy
    rw [hc] at hy
    injection hy with hy
    rw [← hy]
    exact hcw
  · intro y hy
    rw [hd] at hy
    injection hy with hy
    rw [← hy]
    exact hdw

lemma serialize_block_head (s : SubtitleSegment) :
    ∃ c, (serialize_block s).head? = some c ∧ isPySpace c = false := by
  obtain ⟨c, hc, hcw⟩ := intToString_head s.number
  refine ⟨c, ?_, hcw⟩
  unfold serialize_block
  exact head?_append_left _ _ c (head?_append_left _ _ c hc)

lemma serialize_block_ne_nil (s : SubtitleSegment) : serialize_block s ≠ [] := by
  obtain ⟨c, hc, _⟩ := serialize_block_head s
  intro h
  rw [h] at hc
  simp at hc

lemma serialize_block_getLast (s : SubtitleSegment) (h2 : s.text ≠ []) :
    (serialize_block s).getLast? = s.text.getLast? := by
  obtain ⟨c, hc⟩ := exists_getLast?_of_ne_nil s.text h2
  rw [hc]
  unfold serialize_block
  apply getLast?_append_right
  rw [getLast?_cons_of_ne_nil _ _ h2]
  exact hc

lemma serialize_block_nlnl (s : SubtitleSegment)
    (h1 : pyStrip s.text = s.text) (h2 : s.text ≠ [])
    (h3 : hasNLNL s.text = false) :
    hasNLNL (serialize_block s) = false ∧
      (serialize_block s).getLast? ≠ some '\n' := by
  have hxh : ∀ y, s.text.head? = some y → isPySpace y = false := fun y hy =>
    pyStrip_head_not_space s.text y (by rw [h1]; exact hy)
  have hxl : ∀ y, s.text.getLast? = some y → isPySpace y = false := fun y hy =>
    pyStrip_getLast_not_space s.text y (by rw [h1]; exact hy)
  constructor
  · unfold serialize_block
    apply hasNLNL_append
    · apply hasNLNL_append
      · exact hasNLNL_of_no_nl _
          (fun c hc hceq => intToString_no_nl s.number (hceq ▸ hc))
      · apply hasNLNL_cons_nl
        · obtain ⟨c, hc, hcw⟩ := tsline_head s.start_ms s.end_ms
          intro hcon
          rw [hc] at hcon
          injection hcon with hcon
          rw [hcon] at hcw
          exact absurd hcw (by decide)
        · exact hasNLNL_of_no_nl _
            (fun c hc hceq => tsline_no_nl _ _ (hceq ▸ hc))
      · rintro ⟨ha, -⟩
        obtain ⟨d, hd, hdd⟩ := intToString_getLast s.number
        rw [hd] at ha
        injection ha with ha
        rw [ha] at hdd
        exact absurd hdd (by decide)
    · apply hasNLNL_cons_nl
      · intro hcon
        exact absurd (hxh '\n' hcon) (by decide)
      · exact h3
    · rintro ⟨ha, -⟩
      obtain ⟨d, hd, _, hdnl⟩ := tsline_last s.start_ms s.end_ms
      have hTne : format_timestamp_tr s.start_ms ++ arrowSep ++
          format_timestamp_tr s.end_ms ≠ [] := by
        intro hcon
        rw [hcon] at hd
        simp at hd
      have hT : (intToString s.number ++ '\n' ::
          (format_timestamp_tr s.start_ms ++ arrowSep ++
            format_timestamp_tr s.end_ms)).getLast? = some d := by
        apply getLast?_append_right
        rw [getLast?_cons_of_ne_nil _ _ hTne]
        exact hd
      rw [hT] at ha
      injection ha with ha
      exact hdnl ha
  · rw [serialize_block_getLast s h2]
    intro hcon
    exact absurd (hxl '\n' hcon) (by decide)

set_option maxHeartbeats 2000000 in
lemma parse_serialize_block (s : SubtitleSegment)
    (h1 : pyStrip s.text = s.text) (h2 : s.text ≠ [])
    (h4 : 0 ≤ s.start_ms) (h5 : 0 ≤ s.end_ms) :
    parse_block (serialize_block s) = some s := by
  have hxl : ∀ y, s.text.getLast? = some y → isPySpace y = false := fun y hy =>
    pyStrip_getLast_not_space s.text y (by rw [h1]; exact hy)
  have hstrip : pyStrip (serialize_block s) = serialize_block s := by
    apply pyStrip_eq_self
    · intro y hy
      obtain ⟨c, hc, hcw⟩ := serialize_block_head s
      rw [hc] at hy
      injection hy with hy
      rw [← hy]
      exact hcw
    · intro y hy
      rw [serialize_block_getLast s h2] at hy
      exact hxl y hy
  have hBne : serialize_block s ≠ [] := serialize_block_ne_nil s
  have hassocB : serialize_block s = intToString s.number ++ '\n' ::
      ((format_timestamp_tr s.start_ms ++ arrowSep ++
        format_timestamp_tr s.end_ms) ++ '\n' :: s.text) := by
    unfold serialize_block
    simp [List.append_assoc]
  have hlines : splitOnChar '\n' (serialize_block s) =
      intToString s.number ::
        (format_timestamp_tr s.start_ms ++ arrowSep ++
          format_timestamp_tr s.end_ms) ::
        splitOnChar '\n' s.text := by
    rw [hassocB, splitOnChar_append_sep '\n' _ _ (intToString_no_nl s.number),
      splitOnChar_append_sep '\n' _ _ (tsline_no_nl _ _)]
  have hR1 : 1 ≤ (splitOnChar '\n' s.text).length := by
    cases hcc : splitOnChar '\n' s.text with
    | nil => exact absurd hcc (splitOnChar_ne_nil _ _)
    | cons a as => simp
  have hsplit2 : splitSeq arrowSep (format_timestamp_tr s.start_ms ++ arrowSep ++
      format_timestamp_tr s.end_ms) =
      [format_timestamp_tr s.start_ms, format_timestamp_tr s.end_ms] := by
    rw [splitSeq_nospace_chunk _ _ (format_no_space _),
      splitSeq_nospace_no_sep _ (format_no_space _)]
  simp only [parse_block]
  rw [hstrip, hlines]
  rw [if_neg (by intro hcon; exact hBne (by simpa using hcon))]
  rw [if_pos (by simp only [List.length_cons]; omega)]
  simp only [List.headD_cons, List.getD_cons_succ, List.getD_cons_zero,
    List.drop_succ_cons, List.drop_zero]
  rw [pythonInt_pyStrip, pythonInt_intToString]
  simp only []
  rw [tsline_pyStrip, hsplit2]
  simp only []
  rw [format_pyStrip, format_pyStrip, parse_format_timestamp_tr,
    parse_format_timestamp_tr, joinSep_splitOnChar, h1,
    max_eq_right h4, max_eq_right h5]

lemma parse_block_clean (block : List Char) (hb : hasNLNL block = false)
    (s : SubtitleSegment) (h : parse_block block = some s) :
    pyStrip s.text = s.text ∧ s.text ≠ [] ∧ hasNLNL s.text = false ∧
      0 ≤ s.start_ms ∧ 0 ≤ s.end_ms := by
  simp only [parse_block] at h
  by_cases he : (pyStrip block).isEmpty
  · rw [if_pos he] at h
    simp at h
  · rw [if_neg he] at h
    by_cases hlen : 3 ≤ (splitOnChar '\n' (pyStrip block)).length
    · rw [if_pos hlen] at h
      cases hnum : pythonInt (pyStrip ((splitOnChar '\n' (pyStrip block)).headD [])) with
      | none =>
        rw [hnum] at h
        simp at h
      | some number =>
        rw [hnum] at h
        cases hsp : splitSeq arrowSep
            (pyStrip ((splitOnChar '\n' (pyStrip block)).getD 1 [])) with
        | nil =>
          rw [hsp] at h
          simp at h
        | cons p tail =>
          rw [hsp] at h
          cases tail with
          | nil => simp at h
          | cons q tail2 =>
            cases tail2 with
            | cons r tail3 => simp at h
            | nil =>
              simp only [] at h
              injection h with h
              subst h
              have hSTne : pyStrip block ≠ [] := fun hcon => he (by rw [hcon]; rfl)
              have hjoin : joinSep ['\n'] (splitOnChar '\n' (pyStrip block)) =
                  pyStrip block := joinSep_splitOnChar '\n' _
              obtain ⟨A, hA⟩ := joinSep_drop_suffix ['\n']
                (splitOnChar '\n' (pyStrip block)) 2
              refine ⟨pyStrip_idem _, ?_, ?_, parse_timestamp_tr_nonneg _,
                parse_timestamp_tr_nonneg _⟩
              · obtain ⟨x, hx⟩ := exists_getLast?_of_ne_nil (pyStrip block) hSTne
                have hxw : isPySpace x = false := pyStrip_getLast_not_space block x hx
                obtain ⟨L, hL⟩ := exists_getLast?_of_ne_nil
                  (splitOnChar '\n' (pyStrip block)) (splitOnChar_ne_nil _ _)
                have hLne : L ≠ [] := by
                  intro hcon
                  rcases splitOnChar_getLast_nil '\n' (pyStrip block)
                      (by rw [hL, hcon]) with h1 | h1
                  · exact hSTne h1
                  · rw [h1] at hx
                    injection hx with hx
                    rw [← hx] at hxw
                    exact absurd hxw (by decide)
                have hdropL : (((splitOnChar '\n' (pyStrip block))).drop 2).getLast? =
                    some L := by
                  rw [getLast?_drop_of_lt 2 _ (by omega)]
                  exact hL
                obtain ⟨B, hB⟩ := joinSep_suffix_last ['\n'] _ L hdropL
                have hJne : joinSep ['\n']
                    ((splitOnChar '\n' (pyStrip block)).drop 2) ≠ [] := by
                  rw [hB]
                  intro hcon
                  rcases List.append_eq_nil.mp hcon with ⟨-, h2⟩
                  exact hLne h2
                have hJlast : (joinSep ['\n']
                    ((splitOnChar '\n' (pyStrip block)).drop 2)).getLast? = some x := by
                  obtain ⟨y, hy⟩ := exists_getLast?_of_ne_nil _ hJne
                  have h2 : (pyStrip block).getLast? = some y := by
                    rw [← hjoin, ← hA]
                    exact getLast?_append_right _ _ y hy
                  rw [h2] at hx
                  injection hx with hx
                  rw [hy, hx]
                exact pyStrip_ne_nil_of_mem _ x (getLast?_mem_of_eq _ x hJlast) hxw
              · have hst : hasNLNL (pyStrip block) = false := hasNLNL_pyStrip block hb
                have hJ : hasNLNL (joinSep ['\n']
                    ((splitOnChar '\n' (pyStrip block)).drop 2)) = false := by
                  apply hasNLNL_append_right A
                  rw [hA, hjoin]
                  exact hst
                exact hasNLNL_pyStrip _ hJ
    · rw [if_neg hlen] at h
      simp at h

lemma parse_srt_content_clean (x : List Char) :
    ∀ s ∈ parse_srt_content x, pyStrip s.text = s.text ∧ s.text ≠ [] ∧
      hasNLNL s.text = false ∧ 0 ≤ s.start_ms ∧ 0 ≤ s.end_ms := by
  intro s hs
  unfold parse_srt_content at hs
  obtain ⟨b, hb, hpb⟩ := List.mem_filterMap.mp hs
  exact parse_block_clean b (splitSeq_nlnl_parts _ b hb) s hpb

lemma serialize_flatten : ∀ (segs : List SubtitleSegment), segs ≠ [] →
    joinSep ['\n'] ((segs.map serialize_segment).flatten) =
      joinSep ['\n', '\n'] (segs.map serialize_block) ++ ['\n']
  | [], h => absurd rfl h
  | [s], _ => by
    simp [joinSep, serialize_segment, serialize_block, List.append_assoc]
  | s :: r :: rest', _ => by
    have ih := serialize_flatten (r :: rest') (by simp)
    have hQne : serialize_segment r ++
        ((rest'.map serialize_segment)).flatten ≠ [] := by
      simp [serialize_segment]
    simp only [List.map_cons, List.flatten_cons] at ih ⊢
    rw [show serialize_segment s = [intToString s.number,
      format_timestamp_tr s.start_ms ++ arrowSep ++ format_timestamp_tr s.end_ms,
      s.text, []] from rfl]
    rw [List.cons_append, List.cons_append, List.cons_append, List.cons_append,
      List.nil_append]
    rw [joinSep_cons, joinSep_cons, joinSep_cons]
    rw [joinSep_cons_of_ne_nil _ _ _ hQne]
    rw [ih]
    rw [joinSep_cons_of_ne_nil ['\n', '\n'] (serialize_block s) _ (by simp)]
    simp [serialize_block, List.append_assoc]

lemma parse_serialize (segs : List SubtitleSegment)
    (hc : ∀ s ∈ segs, pyStrip s.text = s.text ∧ s.text ≠ [] ∧
      hasNLNL s.text = false ∧ 0 ≤ s.start_ms ∧ 0 ≤ s.end_ms) :
    parse_srt_content (serialize_srt segs) = segs := by
  cases segs with
  | nil => rfl
  | cons s0 rest =>
    have hBfacts : ∀ b ∈ (s0 :: rest).map serialize_block,
        hasNLNL b = false ∧ b.getLast? ≠ some '\n' := by
      intro b hbm
      obtain ⟨s, hs, rfl⟩ := List.mem_map.mp hbm
      obtain ⟨c1, c2, c3, -, -⟩ := hc s hs
      exact serialize_block_nlnl s c1 c2 c3
    obtain ⟨c0, hc0, hc0w⟩ := serialize_block_head s0
    have hJhead0 : (joinSep ['\n', '\n'] ((s0 :: rest).map serialize_block)).head? =
        some c0 := by
      rw [List.map_cons]
      exact joinSep_head _ _ _ c0 hc0
    have hhead : ∀ y, (joinSep ['\n', '\n']
        ((s0 :: rest).map serialize_block)).head? = some y → isPySpace y = false := by
      intro y hy
      rw [hJhead0] at hy
      injection hy with hy
      rw [← hy]
      exact hc0w
    obtain ⟨sl, hsl⟩ := exists_getLast?_of_ne_nil (s0 :: rest) (by simp)
    have hslmem : sl ∈ s0 :: rest := getLast?_mem_of_eq _ sl hsl
    obtain ⟨d1, d2, -, -, -⟩ := hc sl hslmem
    obtain ⟨cl, hcl⟩ := exists_getLast?_of_ne_nil sl.text d2
    have hclw : isPySpace cl = false :=
      pyStrip_getLast_not_space sl.text cl (by rw [d1]; exact hcl)
    have hblast : (serialize_block sl).getLast? = some cl := by
      rw [serialize_block_getLast sl d2]
      exact hcl
    have hmaplast : (((s0 :: rest)).map serialize_block).getLast? =
        some (serialize_block sl) := by
      rw [List.getLast?_map, hsl]
      rfl
    obtain ⟨B', hB'⟩ := joinSep_suffix_last ['\n', '\n'] _ _ hmaplast
    have hJlast0 : (joinSep ['\n', '\n']
        ((s0 :: rest).map serialize_block)).getLast? = some cl := by
      rw [hB']
      exact getLast?_append_right _ _ cl hblast
    have hlast : ∀ y, (joinSep ['\n', '\n']
        ((s0 :: rest).map serialize_block)).getLast? = some y →
        isPySpace y = false := by
      intro y hy
      rw [hJlast0] at hy
      injection hy with hy
      rw [← hy]
      exact hclw
    have hJne : joinSep ['\n', '\n'] ((s0 :: rest).map serialize_block) ≠ [] := by
      intro hcon
      rw [hcon] at hJhead0
      simp at hJhead0
    have hser : serialize_srt (s0 :: rest) =
        joinSep ['\n', '\n'] ((s0 :: rest).map serialize_block) := by
      unfold serialize_srt
      rw [serialize_flatten _ (by simp)]
      exact pyStrip_append_newline _ hJne hhead hlast
    unfold parse_srt_content
    rw [hser, pyStrip_eq_self _ hhead hlast,
      splitSeq_joinSep_nlnl _ (by simp) hBfacts]
    exact filterMap_map_id parse_block serialize_block (s0 :: rest)
      (fun a ha => by
        obtain ⟨e1, e2, -, e4, e5⟩ := hc a ha
        exact parse_serialize_block a e1 e2 e4 e5)

/-- C9: serialize after parse is an idempotent normalization.  For every
input string, parsing the serialization of the parse yields the same
segment list, so the serialized forms agree:
`serialize(parse(serialize(parse(T)))) = serialize(parse(T))`.  No
well-formedness hypothesis is needed because `parse_srt_content` only
ever emits segments with stripped non-empty blank-line-free text and
nonnegative timestamps, on which the serializer is a left inverse of the
parser. -/
theorem serialize_parse_idempotent (T : List Char) :
    serialize_srt (parse_srt_content (serialize_srt (parse_srt_content T))) =
      serialize_srt (parse_srt_content T) :=
  congrArg serialize_srt (parse_serialize _ (parse_srt_content_clean T))
